/-
Verification of the maze-solver repository (DFS/BFS/A*/JPS with custom
frontier and priority-queue data structures) against its specification.

The Python sources are shallowly embedded as executable Lean definitions:

* `PriorityQueue` mirrors `maze_solver/data_structure/queue.py`
  (binary min-heap as a list, reference-count map as an association list).
* `dllRemove` mirrors `DoubleLinkedList.remove` from
  `maze_solver/data_structure/double_linked_list.py`, including its
  failure modes (`ValueError` for the out-of-range guard, an untyped
  `AttributeError` for `None` attribute access).
* `expandNode` / `solveUninformed` mirror `UninformedSolver` from
  `maze_solver/uninformed_solver.py`.
* `getJumpPoints` / the informed loop mirror `InformedSolver` and `JPS`
  from `maze_solver/informed_solver.py`.  That module uses the standard
  library `queue.PriorityQueue` with entries `(key, id(node), node)`;
  we model the queue as a list in push order and model `id(node)` by
  insertion order (CPython allocates the nodes sequentially), popping a
  minimal-key entry.  Because `id`-based tie-breaking is not otherwise
  specified, runs are additionally parameterised by an arbitrary
  tie-breaking choice stream, and the theorems that depend on a concrete
  trace record that the trace was tie-free (each pop had a unique
  minimal key), so the trace is independent of the tie-break.
* Python `float` keys (Euclidean heuristic, `sqrt(2)` step costs) are
  modelled exactly as `g + sqrt m` / `a + b * sqrt 2` with natural
  components; the boolean comparators used by the embedded loops are
  proved equivalent to the real-number order.

Grid cells keep the distinction made by `Maze._process_symbol`:
`'#' -> 0`, `' ' -> 1`, other characters (in particular `'A'`/`'B'`)
are kept as characters, so `cell != 0`, `cell == 1` and `cell == 'B'`
are three different tests.
-/
import Mathlib

namespace MazeSolver

/-- Grid position `(row, column)`; Python uses unbounded ints. -/
abbrev Pos := ℤ × ℤ

/-- A processed maze cell: `wall` is `0`, `open` is `1`, and the start
and goal keep their characters `'A'`/`'B'`. -/
inductive Cell where
  | wall
  | free
  | charA
  | charB
deriving DecidableEq, Repr

/-- The maze: the processed grid of cells (list of rows). -/
structure Maze where
  grid : List (List Cell)
deriving DecidableEq, Repr

/-- `len(self._maze)`. -/
def Maze.height (m : Maze) : ℤ := m.grid.length

/-- `len(self._maze[0])`. -/
def Maze.width (m : Maze) : ℤ := (m.grid.headD []).length

/-- `self._maze[row][column]`; only evaluated after a bounds check in
the solvers, so the `wall` default is never observable. -/
def Maze.cellAt (m : Maze) (r c : ℤ) : Cell :=
  ((m.grid.getD r.toNat []).getD c.toNat Cell.wall)

/-- `_find_start_and_stop_coords`, the `'A'` half: scans the grid in
row-major order, later occurrences overwriting earlier ones. -/
def Maze.findCell (m : Maze) (target : Cell) : Option Pos :=
  (List.range m.grid.length).foldl
    (fun acc r =>
      (List.range ((m.grid.getD r []).length)).foldl
        (fun acc2 c =>
          if (m.grid.getD r []).getD c Cell.wall = target
            then some ((r : ℤ), (c : ℤ)) else acc2)
        acc)
    none

/-- `Maze.get_start()`; the solvers assume the maze has a start cell. -/
def Maze.start (m : Maze) : Pos := (m.findCell Cell.charA).getD (0, 0)

/-- `Maze.get_stop()`; the solvers assume the maze has a goal cell. -/
def Maze.stop (m : Maze) : Pos := (m.findCell Cell.charB).getD (0, 0)

/-- The interior-bounds test used before every grid access in
`_expand_node` and `_get_jump_points`:
`0 < row < height-1 and 0 < column < width-1`. -/
def Maze.interior (m : Maze) (p : Pos) : Bool :=
  0 < p.1 && p.1 < m.height - 1 && 0 < p.2 && p.2 < m.width - 1

/-- The four orthogonal direction labels of `UninformedSolver._expand_node`,
in Python dict insertion order. -/
inductive Dir where
  | up
  | down
  | left
  | right
  | upperLeft
  | upperRight
  | lowerLeft
  | lowerRight
deriving DecidableEq, Repr

/-- The `(row, column)` delta of each action (`ACTIONS` dict). -/
def Dir.delta : Dir → Pos
  | .up => (-1, 0)
  | .down => (1, 0)
  | .left => (0, -1)
  | .right => (0, 1)
  | .upperLeft => (-1, -1)
  | .upperRight => (-1, 1)
  | .lowerLeft => (1, -1)
  | .lowerRight => (1, 1)

/-- The orthogonal actions, in the iteration order of the
`UninformedSolver._expand_node` dict. -/
def orthDirs : List Dir := [.up, .down, .left, .right]

/-- All eight JPS actions, in the iteration order of `JPS.ACTIONS`. -/
def allDirs : List Dir :=
  [.up, .down, .left, .right, .upperLeft, .upperRight, .lowerLeft, .lowerRight]

/-- `GraphNode` from `maze_solver/data_structure/node.py` as used by the
uninformed solver and plain A*: integer cumulative cost, backpointer
`prev`.  The `root` constructor is a node built with `prev=None`, the
`child` constructor one built with `prev=node`; the diagnostic `action`
label is carried along unchanged. -/
inductive GraphNode where
  | root (data : Pos) (action : Option Dir) (cost : ℕ)
  | child (data : Pos) (prev : GraphNode) (action : Option Dir) (cost : ℕ)
deriving DecidableEq, Repr

def GraphNode.data : GraphNode → Pos
  | .root d _ _ => d
  | .child d _ _ _ => d

def GraphNode.prev : GraphNode → Option GraphNode
  | .root _ _ _ => none
  | .child _ p _ _ => some p

def GraphNode.cost : GraphNode → ℕ
  | .root _ _ c => c
  | .child _ _ _ c => c

/-- The position list obtained by walking the `prev` chain
(`_get_solution_path` collects exactly these positions into a set). -/
def GraphNode.chain : GraphNode → List Pos
  | .root d _ _ => [d]
  | .child d p _ _ => d :: p.chain

/-- `UninformedSolver._expand_node`: for each orthogonal action in dict
order, the stepped-to position is kept when it is strictly inside the
outer ring and its cell is `!= 0`; the child gets `cost + 1`. -/
def expandNode (m : Maze) (n : GraphNode) : List GraphNode :=
  orthDirs.filterMap (fun d =>
    let r := d.delta.1 + n.data.1
    let c := d.delta.2 + n.data.2
    if m.interior (r, c) then
      if m.cellAt r c ≠ Cell.wall then
        some (GraphNode.child (r, c) n (some d) (n.cost + 1))
      else none
    else none)

/-- Failure modes of `DoubleLinkedList.remove`: the guarded
`ValueError("Index out of range.")`, and the untyped `AttributeError`
raised when the code dereferences `None` (e.g. `self.head.data` on an
empty list). -/
inductive DllErr where
  | valueError
  | attrError
deriving DecidableEq, Repr

/-- `DoubleLinkedList.remove(index)` on a frontier holding `l` (front
first).  Mirrors the source: the guard `abs(index) > size` raises
`ValueError`; negative indices are shifted by `size`; the `index == 0`
branch dereferences `self.head` (`AttributeError` when the list is
empty); the middle branch walks `index` links and dereferences the
result (`AttributeError` when the walk runs off the end, which happens
for `index == size` on a nonempty list). -/
def dllRemove (l : List GraphNode) (index : ℤ) : Except DllErr (GraphNode × List GraphNode) :=
  if index.natAbs > l.length then .error .valueError
  else
    let i : ℤ := if index < 0 then (l.length : ℤ) + index else index
    let n : ℕ := i.toNat
    if n = 0 then
      match l with
      | [] => .error .attrError
      | x :: xs => .ok (x, xs)
    else if n = l.length - 1 then
      .ok ((l.getLast?).getD (GraphNode.root (0,0) none 0), l.dropLast)
    else if n < l.length then
      .ok ((l.get? n).getD (GraphNode.root (0,0) none 0), l.eraseIdx n)
    else .error .attrError

/-- `DoubleLinkedList.__contains__`: scans for a node whose position
(`current_node.data.data`) equals the query. -/
def dllContains (l : List GraphNode) (p : Pos) : Bool :=
  l.any (fun n => n.data = p)

/-- Result of `UninformedSolver._solve_maze`: either the solution path
positions (the `prev`-chain of the found node, which the source stores
in a set) together with the explored positions, or the
`ValueError('No solution found.')` outcome. -/
inductive USolveRes where
  | ok (solution : List Pos) (explored : List Pos)
  | noSolution (explored : List Pos)
  | outOfFuel
  | innerErr (e : DllErr)
deriving DecidableEq, Repr

/-- Python `set.add` on an explored set modelled as a list. -/
def addPos (ex : List Pos) (p : Pos) : List Pos :=
  if p ∈ ex then ex else p :: ex

/-- The `while not stack.is_empty()` loop of
`UninformedSolver._solve_maze`; `index` is `-1` for DFS, `0` for BFS.
Fuel bounds the number of iterations (the Python loop terminates on
finite mazes; all theorems below either hold for every fuel or use a
fuel large enough that the loop finishes). -/
def uninformedLoop (m : Maze) (index : ℤ) : ℕ → List GraphNode → List Pos → USolveRes
  | 0, stack, ex => if stack.isEmpty then .noSolution ex else .outOfFuel
  | fuel + 1, stack, ex =>
    if stack.isEmpty then .noSolution ex
    else
      match dllRemove stack index with
      | .error e => .innerErr e
      | .ok (node, rest) =>
        let ex' := addPos ex node.data
        if node.data = m.stop then .ok node.chain ex'
        else
          let nbrs := (expandNode m node).filter
            (fun nb => nb.data ∉ ex' && !dllContains rest nb.data)
          uninformedLoop m index fuel (rest ++ nbrs) ex'

/-- `UninformedSolver._solve_maze(alg_name)`:
seeds the frontier with the start node. -/
def solveUninformed (m : Maze) (index : ℤ) (fuel : ℕ) : USolveRes :=
  uninformedLoop m index fuel [GraphNode.root m.start none 0] []

/-! ### Exact models of the informed solvers' `float` keys

`InformedSolver._get_heuristic` returns `value + node.cost` where
`value` is the Manhattan distance (an `int`) or the Euclidean distance
(a `float` square root).  JPS step costs add `1` or `sqrt(2)`.  We
represent these reals exactly: a Euclidean key is a pair `(g, m)`
denoting `g + sqrt m`, a JPS cost/key is a pair `(a, b)` denoting
`a + b * sqrt 2`.  The boolean comparators below decide the real order
on these representations (proved against `Real.sqrt` further down). -/

/-- Manhattan heuristic `|Δrow| + |Δcol|` from `_get_heuristic`. -/
def manhattanTo (stop p : Pos) : ℕ :=
  (stop.1 - p.1).natAbs + (stop.2 - p.2).natAbs

/-- Squared Euclidean distance, the radicand of the `'euclid'` branch of
`_get_heuristic`. -/
def sqDistTo (stop p : Pos) : ℕ :=
  ((p.1 - stop.1) ^ 2 + (p.2 - stop.2) ^ 2).toNat

/-- Decides `(e : ℤ) * sqrt 2 < (d : ℤ)` by sign analysis and squaring. -/
def sqrtTwoMulLt (e d : ℤ) : Bool :=
  if 0 ≤ e then 0 < d && 2 * e ^ 2 < d ^ 2
  else 0 ≤ d || d ^ 2 < 2 * e ^ 2

/-- Decides `a.1 + a.2 * sqrt 2 < b.1 + b.2 * sqrt 2` for `ℕ`-pairs. -/
def ltRt2 (a b : ℕ × ℕ) : Bool :=
  sqrtTwoMulLt ((a.2 : ℤ) - b.2) ((b.1 : ℤ) - a.1)

/-- Decides `sqrt m < d + sqrt n` (`m n : ℕ`, `d : ℤ`): `d + sqrt n`
must be positive and its square must exceed `m`; both conditions are
resolved by sign analysis and squaring. -/
def sqrtLtAddSqrt (m : ℕ) (d : ℤ) (n : ℕ) : Bool :=
  let xpos : Bool := if 0 ≤ d then (0 < d || 0 < n) else (d ^ 2 < (n : ℤ))
  let t : ℤ := (m : ℤ) - d ^ 2 - n
  xpos && (if 0 ≤ d then (t < 0 || t ^ 2 < 4 * d ^ 2 * n) else (t < 0 && 4 * d ^ 2 * n < t ^ 2))

/-- Decides `a.1 + sqrt a.2 < b.1 + sqrt b.2` for `ℕ`-pairs. -/
def ltEu (a b : ℕ × ℕ) : Bool :=
  sqrtLtAddSqrt a.2 ((b.1 : ℤ) - a.1) b.2

/-- The node class used by the informed solvers, with an exact
`a + b * sqrt 2` cost.  (`informed_solver.py` imports `Node`; the class
with that name and the `parent=` keyword used by `JPS` lives in
`data_sctructures/node.py`, while `_get_solution_path` reads the
backpointer as `.prev`; both name the same conceptual field, embedded
here as the `child` constructor's `prev` argument.) -/
inductive JNode where
  | root (data : Pos) (action : Option Dir) (cost : ℕ × ℕ)
  | child (data : Pos) (prev : JNode) (action : Option Dir) (cost : ℕ × ℕ)
deriving DecidableEq, Repr

def JNode.data : JNode → Pos
  | .root d _ _ => d
  | .child d _ _ _ => d

def JNode.cost : JNode → ℕ × ℕ
  | .root _ _ c => c
  | .child _ _ _ c => c

/-- The position list obtained by walking the backpointer chain. -/
def JNode.chain : JNode → List Pos
  | .root d _ _ => [d]
  | .child d p _ _ => d :: p.chain

/-! ### JPS jump-point expansion (`informed_solver.py`, class `JPS`) -/

/-- The `'row'` entry of `JPS._check_diag`'s `actions_to_check`. -/
def diagRowDir : Dir → Dir
  | .upperRight => .down
  | .lowerRight => .up
  | .upperLeft => .down
  | _ => .up

/-- The `'column'` entry of `JPS._check_diag`'s `actions_to_check`. -/
def diagColDir : Dir → Dir
  | .upperRight => .left
  | .lowerRight => .left
  | .upperLeft => .right
  | _ => .right

/-- `JPS._check_vertical` (`action` is `up` or `down`). -/
def checkVertical (mz : Maze) (p : Pos) (d : Dir) : Bool :=
  let r := p.1; let c := p.2
  let cl := c + Dir.delta .left |>.2
  let cr := c + Dir.delta .right |>.2
  ((0 < cl && cl < mz.width - 1) && mz.cellAt r cl == Cell.wall
    && (let rd := r + d.delta.1
        (0 < rd && rd < mz.height - 1) && (0 < cl && cl < mz.width - 1)
          && mz.cellAt rd cl == Cell.free))
  || ((0 < cr && cr < mz.width - 1) && mz.cellAt r cr == Cell.wall
    && (let rd := r + d.delta.1
        (0 < rd && rd < mz.height - 1) && (0 < cr && cr < mz.width - 1)
          && mz.cellAt rd cr == Cell.free))

/-- `JPS._check_horizontal` (`action` is `left` or `right`). -/
def checkHorizontal (mz : Maze) (p : Pos) (d : Dir) : Bool :=
  let r := p.1; let c := p.2
  let ru := r + Dir.delta .up |>.1
  let rd := r + Dir.delta .down |>.1
  ((0 < ru && ru < mz.height - 1) && mz.cellAt ru c == Cell.wall
    && (let cd := c + d.delta.2
        (0 < cd && cd < mz.width - 1) && (0 < ru && ru < mz.height - 1)
          && mz.cellAt ru cd == Cell.free))
  || ((0 < rd && rd < mz.height - 1) && mz.cellAt rd c == Cell.wall
    && (let cd := c + d.delta.2
        (0 < cd && cd < mz.width - 1) && (0 < rd && rd < mz.height - 1)
          && mz.cellAt rd cd == Cell.free))

/-- `JPS._check_diag` (diagonal actions). -/
def checkDiag (mz : Maze) (p : Pos) (d : Dir) : Bool :=
  let r := p.1; let c := p.2
  let rtc := r + (diagRowDir d).delta.1
  let ctc := c + (diagColDir d).delta.2
  ((0 < rtc && rtc < mz.height - 1) && mz.cellAt rtc c == Cell.wall
    && (let nc := c + (diagColDir d).delta.2
        (0 < nc && nc < mz.width - 1) && mz.cellAt rtc nc == Cell.free))
  || ((0 < ctc && ctc < mz.width - 1) && mz.cellAt r ctc == Cell.wall
    && (let nr := r + (diagRowDir d).delta.1
        (0 < nr && nr < mz.height - 1) && mz.cellAt nr ctc == Cell.free))

/-- `JPS._is_jump_point`. -/
def isJumpPoint (mz : Maze) (p : Pos) (d : Dir) : Bool :=
  match d with
  | .up | .down => checkVertical mz p d
  | .left | .right => checkHorizontal mz p d
  | _ => checkDiag mz p d

/-- The exact step cost `(cost_row**2 + cost_column**2)**0.5` as an
`a + b * sqrt 2` pair: `(1,0)` for orthogonal steps, `(0,1)` for
diagonal ones. -/
def Dir.stepCost (d : Dir) : ℕ × ℕ :=
  match d with
  | .up | .down | .left | .right => (1, 0)
  | _ => (0, 1)

/-- `JPS._get_jump_points`, with fuel standing in for Python's native
call stack (the recursion advances through the grid; every concrete
evaluation below uses enough fuel, and the general theorems hold for
all fuels). -/
def getJumpPoints (mz : Maze) : ℕ → JNode → Dir → List JNode
  | 0, _, _ => []
  | fuel + 1, n, d =>
    let r := n.data.1 + d.delta.1
    let c := n.data.2 + d.delta.2
    if mz.interior (r, c) then
      let nn := JNode.child (r, c) n (some d)
        (n.cost.1 + d.stepCost.1, n.cost.2 + d.stepCost.2)
      match mz.cellAt r c with
      | Cell.free =>
        if isJumpPoint mz (r, c) d then [nn]
        else
          match d with
          | .up | .down | .left | .right => getJumpPoints mz fuel nn d
          | .upperRight =>
            getJumpPoints mz fuel nn .up ++ getJumpPoints mz fuel nn .right
              ++ getJumpPoints mz fuel nn .upperRight
          | .upperLeft =>
            getJumpPoints mz fuel nn .up ++ getJumpPoints mz fuel nn .left
              ++ getJumpPoints mz fuel nn .upperLeft
          | .lowerRight =>
            getJumpPoints mz fuel nn .down ++ getJumpPoints mz fuel nn .right
              ++ getJumpPoints mz fuel nn .lowerRight
          | .lowerLeft =>
            getJumpPoints mz fuel nn .down ++ getJumpPoints mz fuel nn .left
              ++ getJumpPoints mz fuel nn .lowerLeft
      | Cell.charB => [nn]
      | _ => []
    else []

/-- `JPS._expand_node`: all jump points over the eight actions in
`ACTIONS` order (the `len != 0` guards before `extend` are no-ops). -/
def jpsExpand (mz : Maze) (fuel : ℕ) (n : JNode) : List JNode :=
  allDirs.foldl (fun acc d => acc ++ getJumpPoints mz fuel n d) []

/-! ### The informed search loop (`InformedSolver._solve_maze`)

The source pushes `(key, id(node), node)` into `queue.PriorityQueue`
and pops lexicographically smallest tuples.  We keep the queue as a
list in push order; a pop removes an entry with minimal key, and among
equal minimal keys the choice is taken from an arbitrary choice stream
`cs` (`cs = []` always picks the earliest-pushed minimum, which is the
behaviour of `id`-tie-breaking under sequential allocation).  Each
trace step records whether the popped minimum was unique, so a
tie-free trace is the same for every choice stream. -/

/-- One step of the informed loop's trace. -/
structure Step where
  pos : Pos
  wasExplored : Bool
  pushed : List Pos
  uniqMin : Bool
deriving DecidableEq, Repr

/-- Result of an informed run. -/
structure GoRes (ν : Type) where
  found : Option ν
  trace : List Step
  explored : List Pos
  fuelOut : Bool
deriving DecidableEq, Repr

/-- Indices of queue entries whose key is minimal w.r.t. `lt`. -/
def minIndices {ν κ : Type} (lt : κ → κ → Bool) (q : List (κ × ν)) : List ℕ :=
  (List.range q.length).filter (fun i =>
    match q.get? i with
    | some e => q.all (fun e2 => !lt e2.1 e.1)
    | none => false)

/-- The candidate pop indices: the minimal-key entries (never empty for
a nonempty queue with the comparators used here; the `[0]` fallback
only keeps the definition total). -/
def selectable {ν κ : Type} (lt : κ → κ → Bool) (q : List (κ × ν)) : List ℕ :=
  match minIndices lt q with
  | [] => [0]
  | l => l

/-- The informed loop.  Parameters: goal position, position projection,
expansion function, key function for pushes, key comparator. -/
def informedGo {ν κ : Type} [DecidableEq ν] (stop : Pos) (dataOf : ν → Pos)
    (expand : ν → List ν) (mkKey : ν → κ) (lt : κ → κ → Bool) :
    ℕ → List ℕ → List (κ × ν) → List Pos → GoRes ν
  | 0, _, q, ex => { found := none, trace := [], explored := ex, fuelOut := !q.isEmpty }
  | fuel + 1, cs, q, ex =>
    if q.isEmpty then { found := none, trace := [], explored := ex, fuelOut := false }
    else
      match q.get? ((selectable lt q).getD (cs.headD 0 % (selectable lt q).length) 0) with
      | none => { found := none, trace := [], explored := ex, fuelOut := true }
      | some (k, node) =>
        let rest := q.eraseIdx ((selectable lt q).getD (cs.headD 0 % (selectable lt q).length) 0)
        let uniq := q.countP (fun e => !lt k e.1) = 1
        let wasEx := dataOf node ∈ ex
        let ex' := addPos ex (dataOf node)
        if dataOf node = stop then
          { found := some node,
            trace := [⟨dataOf node, wasEx, [], uniq⟩],
            explored := ex', fuelOut := false }
        else
          let nbrs := (expand node).filter (fun nb => dataOf nb ∉ ex')
          let q' := rest ++ nbrs.map (fun nb => (mkKey nb, nb))
          let r := informedGo stop dataOf expand mkKey lt fuel cs.tail q' ex'
          { r with trace := ⟨dataOf node, wasEx, nbrs.map dataOf, uniq⟩ :: r.trace }

/-- Bounded check that EVERY tie-resolution of the informed loop
reaches a step that pops an already-explored position and still pushes
at least one neighbor.  `false` on fuel exhaustion, goal, or an empty
queue, so `true` really means the event happens in every run. -/
def informedChk {ν κ : Type} [DecidableEq ν] (stop : Pos) (dataOf : ν → Pos)
    (expand : ν → List ν) (mkKey : ν → κ) (lt : κ → κ → Bool) :
    ℕ → List (κ × ν) → List Pos → Bool
  | 0, _, _ => false
  | fuel + 1, q, ex =>
    if q.isEmpty then false
    else
      (selectable lt q).all (fun i =>
        match q.get? i with
        | none => false
        | some (_, node) =>
          let rest := q.eraseIdx i
          let wasEx := dataOf node ∈ ex
          let ex' := addPos ex (dataOf node)
          if dataOf node = stop then false
          else
            let nbrs := (expand node).filter (fun nb => dataOf nb ∉ ex')
            if wasEx ∧ nbrs ≠ [] then true
            else
              let q' := rest ++ nbrs.map (fun nb => (mkKey nb, nb))
              informedChk stop dataOf expand mkKey lt fuel q' ex')

/-- Plain A* with the `'manhattan'` heuristic: integer keys
`manhattan + cost`, expansion inherited from `UninformedSolver`. -/
def astarManGo (m : Maze) (fuel : ℕ) (cs : List ℕ) : GoRes GraphNode :=
  let sn := GraphNode.root m.start none 0
  informedGo m.stop GraphNode.data (expandNode m)
    (fun n => manhattanTo m.stop n.data + n.cost) Nat.blt fuel cs
    [(manhattanTo m.stop m.start + 0, sn)] []

/-- Plain A* with the `'euclid'` heuristic: keys `(g, m)` denote
`g + sqrt m`. -/
def astarEuGo (m : Maze) (fuel : ℕ) (cs : List ℕ) : GoRes GraphNode :=
  let sn := GraphNode.root m.start none 0
  informedGo m.stop GraphNode.data (expandNode m)
    (fun n => (n.cost, sqDistTo m.stop n.data)) ltEu fuel cs
    [((0, sqDistTo m.stop m.start), sn)] []

/-- The all-runs check for Euclidean A*. -/
def astarEuChk (m : Maze) (fuel : ℕ) : Bool :=
  let sn := GraphNode.root m.start none 0
  informedChk m.stop GraphNode.data (expandNode m)
    (fun n => (n.cost, sqDistTo m.stop n.data)) ltEu fuel
    [((0, sqDistTo m.stop m.start), sn)] []

/-- JPS with the `'manhattan'` heuristic: keys `(h + a, b)` denote
`h + a + b * sqrt 2` where `(a, b)` is the node cost. -/
def jpsGo (m : Maze) (jfuel fuel : ℕ) (cs : List ℕ) : GoRes JNode :=
  let sn := JNode.root m.start none (0, 0)
  informedGo m.stop JNode.data (jpsExpand m jfuel)
    (fun n => (manhattanTo m.stop n.data + n.cost.1, n.cost.2)) ltRt2 fuel cs
    [((manhattanTo m.stop m.start, 0), sn)] []

/-- `_get_solution_path(found_node)` for the informed solvers: when the
search fell through with `found_node = None`, the `while` loop body
never runs and the function returns the empty set. -/
def informedSolution {ν : Type} (chainOf : ν → List Pos) : Option ν → List Pos
  | none => []
  | some n => chainOf n

/-! ### The custom binary-heap `PriorityQueue`
(`maze_solver/data_structure/queue.py`)

The heap is a list of `BinaryTreeNode`s (`_vertices_count` always
equals the list length and is kept implicit); `_content` is the
reference-count dict, modelled as an association list in insertion
order.  `BinaryTreeNode.key` is an `int` here (`ℤ`); nothing below
depends on the key type beyond its linear order. -/

/-- `BinaryTreeNode`: payload and key. -/
structure BTNode where
  data : GraphNode
  key : ℤ
deriving DecidableEq, Repr

/-- Dict read (`d[p]` / `p in d`). -/
def dictGet (d : List (Pos × ℕ)) (p : Pos) : Option ℕ :=
  match d with
  | [] => none
  | (q, v) :: rest => if q = p then some v else dictGet rest p

/-- Dict write `d[p] = v` (updates in place, appends when absent). -/
def dictSet (d : List (Pos × ℕ)) (p : Pos) (v : ℕ) : List (Pos × ℕ) :=
  match d with
  | [] => [(p, v)]
  | (q, w) :: rest => if q = p then (p, v) :: rest else (q, w) :: dictSet rest p v

/-- Dict delete `del d[p]`. -/
def dictDrop (d : List (Pos × ℕ)) (p : Pos) : List (Pos × ℕ) :=
  match d with
  | [] => []
  | (q, w) :: rest => if q = p then rest else (q, w) :: dictDrop rest p

/-- The key stored at heap index `i` (call sites always have
`i < length`, where Python would raise `IndexError` otherwise). -/
def keyD (l : List BTNode) (i : ℕ) : ℤ :=
  ((l.get? i).map BTNode.key).getD 0

/-- The Python parallel assignment
`heap[i], heap[j] = heap[j], heap[i]`. -/
def swapIdx (l : List BTNode) (i j : ℕ) : List BTNode :=
  match l.get? i, l.get? j with
  | some x, some y => (l.set i y).set j x
  | _, _ => l

/-- `PriorityQueue._siftup(child_index)`. -/
def siftup (l : List BTNode) (i : ℕ) : List BTNode :=
  if i = 0 then l
  else
    let p := (i - 1) / 2
    if keyD l p ≤ keyD l i then l
    else siftup (swapIdx l i p) p
termination_by i
decreasing_by omega

/-- The `smallest` index computed by `PriorityQueue._siftdown` before
its base-case test: the right child is examined first, then the left
child against the current candidate, both guarded by
`child <= vertices_count - 1` and a strict key comparison. -/
def sdTarget (l : List BTNode) (i : ℕ) : ℕ :=
  if 2 * i + 1 ≤ l.length - 1 ∧
      keyD l (2 * i + 1) <
        keyD l (if 2 * i + 2 ≤ l.length - 1 ∧ keyD l (2 * i + 2) < keyD l i
                then 2 * i + 2 else i)
  then 2 * i + 1
  else if 2 * i + 2 ≤ l.length - 1 ∧ keyD l (2 * i + 2) < keyD l i
  then 2 * i + 2 else i

/-- `PriorityQueue._siftdown(parent_index)`. -/
def siftdown (l : List BTNode) (i : ℕ) : List BTNode :=
  if _h : sdTarget l i = i then l
  else siftdown (swapIdx l i (sdTarget l i)) (sdTarget l i)
termination_by l.length - i
decreasing_by
  have hsn : sdTarget l i ≤ l.length - 1 ∧ i < sdTarget l i := by
    simp only [sdTarget] at _h ⊢
    split_ifs at _h ⊢ <;> omega
  simp only [swapIdx]
  split
  · simp only [List.length_set]
    omega
  · omega

/-- The custom priority queue: heap array plus reference-count dict. -/
structure PriorityQueue where
  binaryHeap : List BTNode
  content : List (Pos × ℕ)
deriving DecidableEq, Repr

/-- The empty queue (`PriorityQueue.__init__`). -/
def PriorityQueue.empty : PriorityQueue := ⟨[], []⟩

/-- `PriorityQueue.put(data, key)`: append the new node, bump the
reference count of its position, sift the last index up. -/
def PriorityQueue.put (q : PriorityQueue) (data : GraphNode) (key : ℤ) : PriorityQueue :=
  let heap := q.binaryHeap ++ [⟨data, key⟩]
  let content :=
    match dictGet q.content data.data with
    | none => dictSet q.content data.data 1
    | some c => dictSet q.content data.data (c + 1)
  ⟨siftup heap (heap.length - 1), content⟩

/-- Outcomes of `PriorityQueue.pop()`: the `IndexError` on an empty
queue, the latent `KeyError` were the popped position missing from
`_content`, or the popped node (the root's data; its key is returned
alongside for the statements below) and the remaining queue. -/
inductive PopRes where
  | emptyErr
  | keyErr
  | ok (data : GraphNode) (key : ℤ) (q : PriorityQueue)
deriving DecidableEq, Repr

/-- `PriorityQueue.pop()`: take the root, fix up the reference count of
its position, move the last element to the root and sift it down. -/
def PriorityQueue.pop (q : PriorityQueue) : PopRes :=
  match q.binaryHeap with
  | [] => .emptyErr
  | root :: restHeap =>
    match dictGet q.content root.data.data with
    | none => .keyErr
    | some c =>
      let content :=
        if c = 1 then dictDrop q.content root.data.data
        else dictSet q.content root.data.data (c - 1)
      let heap' :=
        match restHeap with
        | [] => []
        | _ :: _ =>
          let lastC := ((root :: restHeap).getLast?).getD root
          siftdown (((root :: restHeap).dropLast).set 0 lastC) 0
      .ok root.data root.key ⟨heap', content⟩

/-- `PriorityQueue.__contains__` projected to the position that the
source actually compares (`data.data in self._content`). -/
def PriorityQueue.containsPos (q : PriorityQueue) (p : Pos) : Bool :=
  (dictGet q.content p).isSome

/-- `Pop` repeatedly, collecting `(data, key)` of each popped root, with
explicit fuel (a fuel of `binaryHeap.length` always drains the queue,
since every successful `pop` shortens the heap by one). -/
def popAllEntries : ℕ → PriorityQueue → List (GraphNode × ℤ)
  | 0, _ => []
  | fuel + 1, q =>
    match q.pop with
    | .ok d k q' => (d, k) :: popAllEntries fuel q'
    | _ => []

/-- Build a queue by a sequence of `put`s from the empty queue. -/
def putAll (l : List (GraphNode × ℤ)) : PriorityQueue :=
  l.foldl (fun q e => q.put e.1 e.2) PriorityQueue.empty

/-- A `put` or `pop` instruction (for statements about arbitrary
operation sequences). -/
inductive QOp where
  | put (data : GraphNode) (key : ℤ)
  | pop
deriving DecidableEq, Repr

/-- Run a sequence of operations on a queue; a `pop` that raises
(empty queue) or would raise `KeyError` halts the run at the current
state, mirroring the Python exception. -/
def runQOpsFrom : List QOp → PriorityQueue → PriorityQueue
  | [], q => q
  | op :: rest, q =>
    match op with
    | .put d k => runQOpsFrom rest (q.put d k)
    | .pop =>
      match q.pop with
      | .ok _ _ q' => runQOpsFrom rest q'
      | _ => q

/-- Run a sequence of operations from the empty queue. -/
def runQOps (l : List QOp) : PriorityQueue :=
  runQOpsFrom l PriorityQueue.empty

/-! ### Concrete mazes -/

/-- Shorthand for grid literals. -/
def X : Cell := Cell.wall
/-- Shorthand for grid literals. -/
def O : Cell := Cell.free
/-- Shorthand for grid literals. -/
def A0 : Cell := Cell.charA
/-- Shorthand for grid literals. -/
def B0 : Cell := Cell.charB

/-- A maze whose start and goal are separated by a full wall row. -/
def mazeC2 : Maze :=
  ⟨[
    [X, X, X, X, X],
    [X, A0, O, O, X],
    [X, X, X, X, X],
    [X, O, O, B0, X],
    [X, X, X, X, X]
  ]⟩

/-- A maze where JPS takes a diagonal shortcut that plain A* cannot. -/
def mazeC3 : Maze :=
  ⟨[
    [X, X, X, X, X, X],
    [X, A0, O, O, O, X],
    [X, X, X, X, O, X],
    [X, B0, O, O, O, X],
    [X, X, X, X, X, X]
  ]⟩

/-- A maze where the JPS goal node's backpointer chain revisits a
position: the rightward scan jumps at `(3,7)`, the scan back left jumps
at `(3,6)` (already an intermediate of the first scan), and the goal is
then reached through the side pocket. -/
def mazeC9 : Maze :=
  ⟨[
    [X, X, X, X, X, X, X, X, X, X],
    [X, X, X, X, X, B0, X, X, X, X],
    [X, X, O, O, O, O, X, X, O, X],
    [X, A0, O, O, O, O, O, O, X, X],
    [X, X, X, X, X, X, X, X, X, X]
  ]⟩

/-- A transpose-symmetric maze (goal walled off) on which every
tie-resolution of Euclidean A* pops position `(2,2)` twice: both arms
`(1,2)`/`(2,1)` push it before it is first popped, and the stale second
entry is re-expanded, pushing `(3,2)` and `(2,3)` again. -/
def mazeC1 : Maze :=
  ⟨[
    [X, X, X, X, X, X, X],
    [X, A0, O, X, X, X, X],
    [X, O, O, O, X, X, X],
    [X, X, O, X, X, X, X],
    [X, X, X, X, X, X, X],
    [X, X, X, X, X, B0, X],
    [X, X, X, X, X, X, X]
  ]⟩

/-- A maze with an open cell `(0,2)` on the outer border, adjacent to
the open interior cell `(1,2)`. -/
def mazeC7 : Maze :=
  ⟨[
    [X, X, O, X],
    [X, A0, O, X],
    [X, X, X, X]
  ]⟩

/-! ## Theorems -/

/-! ### Correctness of the exact key comparators -/

/-- Squaring is order-reflecting and order-preserving on nonnegative reals. -/
theorem lt_iff_sq_lt (a b : ℝ) (ha : 0 ≤ a) (hb : 0 ≤ b) : a < b ↔ a ^ 2 < b ^ 2 :=
  ⟨fun h => pow_lt_pow_left₀ h ha (by norm_num),
   fun h => lt_of_pow_lt_pow_left₀ 2 hb h⟩

/-- `sqrtTwoMulLt` decides `e * sqrt 2 < d` over the reals. -/
theorem sqrtTwoMulLt_iff (e d : ℤ) :
    sqrtTwoMulLt e d = true ↔ (e : ℝ) * Real.sqrt 2 < d := by
  have hs : Real.sqrt 2 ^ 2 = 2 := Real.sq_sqrt (by norm_num)
  have hsn : (0 : ℝ) ≤ Real.sqrt 2 := Real.sqrt_nonneg 2
  have hspos : (0 : ℝ) < Real.sqrt 2 := Real.sqrt_pos.mpr (by norm_num)
  have hEsq : ((e : ℝ) * Real.sqrt 2) ^ 2 = 2 * (e : ℝ) ^ 2 := by
    rw [mul_pow, hs]; ring
  simp only [sqrtTwoMulLt]
  split_ifs with he
  · -- 0 ≤ e
    have he' : (0 : ℝ) ≤ (e : ℝ) := by exact_mod_cast he
    have hE : (0 : ℝ) ≤ (e : ℝ) * Real.sqrt 2 := mul_nonneg he' hsn
    simp only [Bool.and_eq_true, decide_eq_true_eq]
    constructor
    · rintro ⟨hd, hsq⟩
      have hd' : (0 : ℝ) < (d : ℝ) := by exact_mod_cast hd
      have hsq' : 2 * (e : ℝ) ^ 2 < (d : ℝ) ^ 2 := by exact_mod_cast hsq
      rw [lt_iff_sq_lt _ _ hE (le_of_lt hd'), hEsq]
      exact hsq'
    · intro h
      have hd' : (0 : ℝ) < (d : ℝ) := lt_of_le_of_lt hE h
      have hsq' : 2 * (e : ℝ) ^ 2 < (d : ℝ) ^ 2 := by
        rw [← hEsq]
        exact ((lt_iff_sq_lt _ _ hE (le_of_lt hd')).mp h)
      exact ⟨by exact_mod_cast hd', by exact_mod_cast hsq'⟩
  · -- e < 0
    push_neg at he
    have he' : (e : ℝ) < 0 := by exact_mod_cast he
    have hE : (e : ℝ) * Real.sqrt 2 < 0 := mul_neg_of_neg_of_pos he' hspos
    simp only [Bool.or_eq_true, decide_eq_true_eq]
    constructor
    · rintro (hd | hsq)
      · have hd' : (0 : ℝ) ≤ (d : ℝ) := by exact_mod_cast hd
        linarith
      · rcases le_or_lt 0 d with hd | hd
        · have hd' : (0 : ℝ) ≤ (d : ℝ) := by exact_mod_cast hd
          linarith
        · have hd' : (d : ℝ) < 0 := by exact_mod_cast hd
          have hsq' : (d : ℝ) ^ 2 < 2 * (e : ℝ) ^ 2 := by exact_mod_cast hsq
          have := (lt_iff_sq_lt (-(d : ℝ)) (-((e : ℝ) * Real.sqrt 2))
            (by linarith) (by linarith)).mpr
            (by rw [neg_sq, neg_sq, hEsq]; exact hsq')
          linarith
    · intro h
      rcases le_or_lt 0 d with hd | hd
      · exact Or.inl (by exact_mod_cast hd)
      · right
        have hd' : (d : ℝ) < 0 := by exact_mod_cast hd
        have := (lt_iff_sq_lt (-(d : ℝ)) (-((e : ℝ) * Real.sqrt 2))
          (by linarith) (by linarith)).mp (by linarith)
        rw [neg_sq, neg_sq, hEsq] at this
        exact_mod_cast this

/-- `ltRt2` decides the real order on `a + b * sqrt 2` pairs. -/
theorem ltRt2_iff (a b : ℕ × ℕ) :
    ltRt2 a b = true ↔
      (a.1 : ℝ) + a.2 * Real.sqrt 2 < (b.1 : ℝ) + b.2 * Real.sqrt 2 := by
  rw [ltRt2, sqrtTwoMulLt_iff]
  push_cast
  constructor <;> intro h <;> linarith

/-- `sqrtLtAddSqrt` decides `sqrt m < d + sqrt n` over the reals. -/
theorem sqrtLtAddSqrt_iff (m : ℕ) (d : ℤ) (n : ℕ) :
    sqrtLtAddSqrt m d n = true ↔
      Real.sqrt m < (d : ℝ) + Real.sqrt n := by
  have hm : (0 : ℝ) ≤ (m : ℝ) := by positivity
  have hn : (0 : ℝ) ≤ (n : ℝ) := by positivity
  have hsn : Real.sqrt (n : ℝ) ^ 2 = n := Real.sq_sqrt hn
  have hsmn : (0 : ℝ) ≤ Real.sqrt m := Real.sqrt_nonneg _
  have hsnn : (0 : ℝ) ≤ Real.sqrt n := Real.sqrt_nonneg _
  have key : ∀ X : ℝ, (Real.sqrt m < X ↔ 0 < X ∧ (m : ℝ) < X ^ 2) := by
    intro X
    constructor
    · intro h
      have hX : 0 < X := lt_of_le_of_lt hsmn h
      exact ⟨hX, (Real.sqrt_lt' hX).mp h⟩
    · rintro ⟨hX, h2⟩
      exact (Real.sqrt_lt' hX).mpr h2
  rw [key]
  have hexp : ((d : ℝ) + Real.sqrt n) ^ 2
      = (d : ℝ) ^ 2 + 2 * d * Real.sqrt n + n := by
    rw [add_sq, hsn]
  simp only [sqrtLtAddSqrt, Bool.and_eq_true]
  have hXpos : (if 0 ≤ d then (decide (0 < d) || decide (0 < n))
      else decide (d ^ 2 < (n : ℤ))) = true ↔ 0 < (d : ℝ) + Real.sqrt n := by
    split_ifs with hd
    · have hd' : (0 : ℝ) ≤ (d : ℝ) := by exact_mod_cast hd
      simp only [Bool.or_eq_true, decide_eq_true_eq]
      constructor
      · rintro (h1 | h1)
        · have : (0 : ℝ) < (d : ℝ) := by exact_mod_cast h1
          linarith
        · have : (0 : ℝ) < Real.sqrt n := Real.sqrt_pos.mpr (by exact_mod_cast h1)
          linarith
      · intro h
        by_contra hcon
        push_neg at hcon
        obtain ⟨h1, h2⟩ := hcon
        have hd0 : d = 0 := le_antisymm h1 hd
        have hn0 : n = 0 := Nat.le_zero.mp h2
        rw [hd0, hn0] at h
        simp at h
    · push_neg at hd
      have hd' : (d : ℝ) < 0 := by exact_mod_cast hd
      simp only [decide_eq_true_eq]
      constructor
      · intro h1
        have h1' : (d : ℝ) ^ 2 < (n : ℝ) := by exact_mod_cast h1
        have := (lt_iff_sq_lt (-(d : ℝ)) (Real.sqrt n) (by linarith) hsnn).mpr
          (by rw [hsn, neg_sq]; exact h1')
        linarith
      · intro h
        have := (lt_iff_sq_lt (-(d : ℝ)) (Real.sqrt n) (by linarith) hsnn).mp
          (by linarith)
        rw [hsn, neg_sq] at this
        exact_mod_cast this
  have hsqiff : (m : ℝ) < ((d : ℝ) + Real.sqrt n) ^ 2 ↔
      (m : ℝ) - (d : ℝ) ^ 2 - (n : ℝ) < 2 * d * Real.sqrt n := by
    rw [hexp]; constructor <;> intro h <;> linarith
  have hRsq : (2 * (d : ℝ) * Real.sqrt n) ^ 2 = 4 * (d : ℝ) ^ 2 * n := by
    rw [mul_pow, mul_pow, hsn]; ring
  have hcond : (if 0 ≤ d then
        (decide ((m : ℤ) - d ^ 2 - n < 0) || decide (((m : ℤ) - d ^ 2 - n) ^ 2 < 4 * d ^ 2 * n))
      else (decide ((m : ℤ) - d ^ 2 - n < 0) && decide ((4 : ℤ) * d ^ 2 * n < ((m : ℤ) - d ^ 2 - n) ^ 2))) = true
      ↔ (m : ℝ) - (d : ℝ) ^ 2 - (n : ℝ) < 2 * d * Real.sqrt n := by
    have hcast : (((m : ℤ) - d ^ 2 - n : ℤ) : ℝ) = (m : ℝ) - (d : ℝ) ^ 2 - (n : ℝ) := by
      push_cast; ring
    split_ifs with hd
    · have hd' : (0 : ℝ) ≤ (d : ℝ) := by exact_mod_cast hd
      have hR : (0 : ℝ) ≤ 2 * (d : ℝ) * Real.sqrt n := by positivity
      simp only [Bool.or_eq_true, decide_eq_true_eq]
      constructor
      · rintro (h1 | h1)
        · have : (m : ℝ) - (d : ℝ) ^ 2 - (n : ℝ) < 0 := by
            rw [← hcast]; exact_mod_cast h1
          linarith
        · rcases lt_or_le ((m : ℤ) - d ^ 2 - n) 0 with ht | ht
          · have : (m : ℝ) - (d : ℝ) ^ 2 - (n : ℝ) < 0 := by
              rw [← hcast]; exact_mod_cast ht
            linarith
          · have ht' : (0 : ℝ) ≤ (m : ℝ) - (d : ℝ) ^ 2 - (n : ℝ) := by
              rw [← hcast]; exact_mod_cast ht
            have h1' : ((m : ℝ) - (d : ℝ) ^ 2 - (n : ℝ)) ^ 2 < 4 * (d : ℝ) ^ 2 * n := by
              rw [← hcast]; exact_mod_cast h1
            exact (lt_iff_sq_lt _ _ ht' hR).mpr (by rw [hRsq]; exact h1')
      · intro h
        rcases lt_or_le ((m : ℤ) - d ^ 2 - n) 0 with ht | ht
        · exact Or.inl ht
        · right
          have ht' : (0 : ℝ) ≤ (m : ℝ) - (d : ℝ) ^ 2 - (n : ℝ) := by
            rw [← hcast]; exact_mod_cast ht
          have := (lt_iff_sq_lt _ _ ht' hR).mp h
          rw [hRsq] at this
          have : ((m : ℝ) - (d : ℝ) ^ 2 - (n : ℝ)) ^ 2 < 4 * (d : ℝ) ^ 2 * n := this
          rw [← hcast] at this
          exact_mod_cast this
    · push_neg at hd
      have hd' : (d : ℝ) < 0 := by exact_mod_cast hd
      have hR : 2 * (d : ℝ) * Real.sqrt n ≤ 0 := by
        apply mul_nonpos_of_nonpos_of_nonneg _ hsnn
        linarith
      have hRneg : (0 : ℝ) ≤ -(2 * (d : ℝ) * Real.sqrt n) := by linarith
      simp only [Bool.and_eq_true, decide_eq_true_eq]
      constructor
      · rintro ⟨h1, h2⟩
        have ht' : (m : ℝ) - (d : ℝ) ^ 2 - (n : ℝ) < 0 := by
          rw [← hcast]; exact_mod_cast h1
        have h2' : 4 * (d : ℝ) ^ 2 * n < ((m : ℝ) - (d : ℝ) ^ 2 - (n : ℝ)) ^ 2 := by
          rw [← hcast]; exact_mod_cast h2
        have := (lt_iff_sq_lt (-(2 * (d : ℝ) * Real.sqrt n))
          (-((m : ℝ) - (d : ℝ) ^ 2 - (n : ℝ))) hRneg (by linarith)).mpr
          (by rw [neg_sq, neg_sq, hRsq]; exact h2')
        linarith
      · intro h
        have ht' : (m : ℝ) - (d : ℝ) ^ 2 - (n : ℝ) < 0 := lt_of_lt_of_le h hR
        constructor
        · have ht2 := ht'
          rw [← hcast] at ht2
          exact_mod_cast ht2
        · have := (lt_iff_sq_lt (-(2 * (d : ℝ) * Real.sqrt n))
            (-((m : ℝ) - (d : ℝ) ^ 2 - (n : ℝ))) hRneg (by linarith)).mp (by linarith)
          rw [neg_sq, neg_sq, hRsq] at this
          rw [← hcast] at this
          exact_mod_cast this
  rw [hsqiff]
  exact and_congr hXpos hcond

/-- `ltEu` decides the real order on `g + sqrt m` pairs. -/
theorem ltEu_iff (a b : ℕ × ℕ) :
    ltEu a b = true ↔
      (a.1 : ℝ) + Real.sqrt a.2 < (b.1 : ℝ) + Real.sqrt b.2 := by
  rw [ltEu, sqrtLtAddSqrt_iff]
  push_cast
  constructor <;> intro h <;> linarith

/-! ### Soundness of the all-tie-resolutions check -/

/-- `selectable` never returns the empty list. -/
theorem selectable_ne_nil {ν κ : Type} (lt : κ → κ → Bool) (q : List (κ × ν)) :
    selectable lt q ≠ [] := by
  unfold selectable
  cases minIndices lt q <;> simp

/-- The index chosen by `informedGo` is among the `selectable` ones. -/
theorem choice_mem_selectable {ν κ : Type} (lt : κ → κ → Bool) (q : List (κ × ν)) (c : ℕ) :
    (selectable lt q).getD (c % (selectable lt q).length) 0 ∈ selectable lt q := by
  have hne := selectable_ne_nil lt q
  have hlen : 0 < (selectable lt q).length := List.length_pos.mpr hne
  have hlt : c % (selectable lt q).length < (selectable lt q).length :=
    Nat.mod_lt _ hlen
  rw [List.getD_eq_getElem _ _ hlt]
  exact List.getElem_mem _

/-- If the bounded check `informedChk` succeeds, then EVERY
tie-resolution choice stream leads the informed loop to a step that
pops an already-explored position and pushes at least one neighbor. -/
theorem informedChk_sound {ν κ : Type} [DecidableEq ν] (stop : Pos) (dataOf : ν → Pos)
    (expand : ν → List ν) (mkKey : ν → κ) (lt : κ → κ → Bool) :
    ∀ (fuel : ℕ) (q : List (κ × ν)) (ex : List Pos),
      informedChk stop dataOf expand mkKey lt fuel q ex = true →
      ∀ cs : List ℕ,
        ∃ s ∈ (informedGo stop dataOf expand mkKey lt fuel cs q ex).trace,
          s.wasExplored = true ∧ s.pushed ≠ [] := by
  intro fuel
  induction fuel with
  | zero => intro q ex hchk; simp [informedChk] at hchk
  | succ fuel ih =>
    intro q ex hchk cs
    rw [informedChk] at hchk
    rw [informedGo]
    by_cases hq : q.isEmpty
    · simp [hq] at hchk
    · simp only [hq, if_false] at hchk ⊢
      set sel := selectable lt q with hsel
      set i := sel.getD (cs.headD 0 % sel.length) 0 with hi
      have hmem : i ∈ sel := choice_mem_selectable lt q (cs.headD 0)
      have hbranch := (List.all_eq_true.mp hchk) i hmem
      cases hget : q.get? i with
      | none => rw [hget] at hbranch; simp at hbranch
      | some e =>
        obtain ⟨k, node⟩ := e
        rw [hget] at hbranch
        simp only at hbranch ⊢
        by_cases hstop : dataOf node = stop
        · simp [hstop] at hbranch
        · simp only [hstop, if_false] at hbranch ⊢
          by_cases hev : dataOf node ∈ ex ∧
              (expand node).filter
                (fun nb => dataOf nb ∉ addPos ex (dataOf node)) ≠ []
          · refine ⟨⟨dataOf node, decide (dataOf node ∈ ex),
              ((expand node).filter
                (fun nb => dataOf nb ∉ addPos ex (dataOf node))).map dataOf, _⟩,
              List.mem_cons_self _ _, ?_, ?_⟩
            · simpa using hev.1
            · simpa using hev.2
          · rw [if_neg hev] at hbranch
            obtain ⟨s, hs, hprop⟩ := ih _ _ hbranch cs.tail
            exact ⟨s, List.mem_cons_of_mem _ hs, hprop⟩

/-! ### Interior invariant of the expansion functions -/

/-- A helper unfolding of the nested `if`s of `expandNode`. -/
theorem expandNode_mem_iff (m : Maze) (n c : GraphNode) :
    c ∈ expandNode m n ↔
      ∃ d ∈ orthDirs,
        m.interior (d.delta.1 + n.data.1, d.delta.2 + n.data.2) = true ∧
        m.cellAt (d.delta.1 + n.data.1) (d.delta.2 + n.data.2) ≠ Cell.wall ∧
        c = GraphNode.child (d.delta.1 + n.data.1, d.delta.2 + n.data.2) n
              (some d) (n.cost + 1) := by
  simp only [expandNode, List.mem_filterMap]
  constructor
  · rintro ⟨d, hd, hf⟩
    refine ⟨d, hd, ?_⟩
    split_ifs at hf with h1 h2
    · simp only [Option.some.injEq] at hf
      exact ⟨h1, h2, hf.symm⟩
  · rintro ⟨d, hd, h1, h2, rfl⟩
    refine ⟨d, hd, ?_⟩
    rw [if_pos h1, if_pos h2]

/-- Every child produced by `UninformedSolver._expand_node` lies
strictly inside the outer ring. -/
theorem expandNode_interior (m : Maze) (n c : GraphNode)
    (h : c ∈ expandNode m n) : m.interior c.data = true := by
  obtain ⟨d, _, h1, _, rfl⟩ := (expandNode_mem_iff m n c).mp h
  exact h1

/-- Every jump point produced by `JPS._get_jump_points` lies strictly
inside the outer ring. -/
theorem getJumpPoints_interior (mz : Maze) :
    ∀ (fuel : ℕ) (n : JNode) (d : Dir) (jp : JNode),
      jp ∈ getJumpPoints mz fuel n d → mz.interior jp.data = true := by
  intro fuel
  induction fuel with
  | zero => intro n d jp h; simp [getJumpPoints] at h
  | succ fuel ih =>
    intro n d jp h
    rw [getJumpPoints] at h
    by_cases hint : mz.interior (n.data.1 + d.delta.1, n.data.2 + d.delta.2)
    · simp only [hint, if_true] at h
      cases hcell : mz.cellAt (n.data.1 + d.delta.1) (n.data.2 + d.delta.2) with
      | free =>
        rw [hcell] at h
        by_cases hjp : isJumpPoint mz (n.data.1 + d.delta.1, n.data.2 + d.delta.2) d
        · simp only [hjp, if_true, List.mem_singleton] at h
          subst h
          exact hint
        · simp only [hjp, if_false] at h
          cases d with
          | up => exact ih _ _ _ h
          | down => exact ih _ _ _ h
          | left => exact ih _ _ _ h
          | right => exact ih _ _ _ h
          | upperRight =>
            rcases List.mem_append.mp h with h2 | h2
            · rcases List.mem_append.mp h2 with h3 | h3 <;> exact ih _ _ _ h3
            · exact ih _ _ _ h2
          | upperLeft =>
            rcases List.mem_append.mp h with h2 | h2
            · rcases List.mem_append.mp h2 with h3 | h3 <;> exact ih _ _ _ h3
            · exact ih _ _ _ h2
          | lowerRight =>
            rcases List.mem_append.mp h with h2 | h2
            · rcases List.mem_append.mp h2 with h3 | h3 <;> exact ih _ _ _ h3
            · exact ih _ _ _ h2
          | lowerLeft =>
            rcases List.mem_append.mp h with h2 | h2
            · rcases List.mem_append.mp h2 with h3 | h3 <;> exact ih _ _ _ h3
            · exact ih _ _ _ h2
      | wall => rw [hcell] at h; simp at h
      | charA => rw [hcell] at h; simp at h
      | charB =>
        rw [hcell] at h
        simp only [List.mem_singleton] at h
        subst h
        exact hint
    · simp [hint] at h

/-- Every jump point produced by `JPS._expand_node` lies strictly
inside the outer ring. -/
theorem jpsExpand_interior (mz : Maze) (fuel : ℕ) (n jp : JNode)
    (h : jp ∈ jpsExpand mz fuel n) : mz.interior jp.data = true := by
  rw [jpsExpand] at h
  have main : ∀ (ds : List Dir) (acc : List JNode),
      (∀ x ∈ acc, mz.interior x.data = true) →
      jp ∈ ds.foldl (fun acc d => acc ++ getJumpPoints mz fuel n d) acc →
      mz.interior jp.data = true := by
    intro ds
    induction ds with
    | nil => intro acc hacc hmem; exact hacc _ hmem
    | cons d ds ihd =>
      intro acc hacc hmem
      refine ihd _ ?_ hmem
      intro x hx
      rcases List.mem_append.mp hx with hx | hx
      · exact hacc _ hx
      · exact getJumpPoints_interior mz fuel n d x hx
  exact main allDirs [] (by simp) h

/-! ### Backpointer chains -/

/-- The rootmost ancestor of a node. -/
def GraphNode.rootAnc : GraphNode → GraphNode
  | .root d a c => .root d a c
  | .child _ p _ _ => p.rootAnc

/-- The rootmost ancestor of a JPS node. -/
def JNode.rootAnc : JNode → JNode
  | .root d a c => .root d a c
  | .child _ p _ _ => p.rootAnc

/-- Walking any `prev` chain terminates, after exactly the (finite)
chain length, at an ancestor with no parent. -/
theorem chain_terminates (n : GraphNode) :
    n.chain ≠ [] ∧ n.chain.getLast? = some n.rootAnc.data ∧
      n.rootAnc.prev = none := by
  induction n with
  | root d a c => simp [GraphNode.chain, GraphNode.rootAnc, GraphNode.prev, GraphNode.data]
  | child d p a c ihp =>
    obtain ⟨h1, h2, h3⟩ := ihp
    refine ⟨by simp [GraphNode.chain], ?_, h3⟩
    rw [GraphNode.chain, GraphNode.rootAnc]
    rw [List.getLast?_cons, h2]
    simp

/-- Walking any JPS `prev` chain terminates at an ancestor with no
parent. -/
theorem jchain_terminates (n : JNode) :
    n.chain ≠ [] ∧ n.chain.getLast? = some n.rootAnc.data := by
  induction n with
  | root d a c => simp [JNode.chain, JNode.rootAnc, JNode.data]
  | child d p a c ihp =>
    obtain ⟨h1, h2⟩ := ihp
    refine ⟨by simp [JNode.chain], ?_⟩
    rw [JNode.chain, JNode.rootAnc]
    rw [List.getLast?_cons, h2]
    simp

/-! ### No position repeats on a DFS/BFS/A* backpointer chain -/

/-- Membership in `addPos`. -/
theorem mem_addPos (ex : List Pos) (p q : Pos) :
    q ∈ addPos ex p ↔ q = p ∨ q ∈ ex := by
  unfold addPos
  split_ifs with h
  · constructor
    · exact fun hq => Or.inr hq
    · rintro (rfl | hq)
      · exact h
      · exact hq
  · simp [List.mem_cons]

/-- The invariant carried by every live search node of the uninformed
and plain-A* loops: its chain starts at its own position, has no
repeated position, and all its ancestors' positions are explored. -/
def ChainInv (dataOf : GraphNode → Pos) (ex : List Pos) (n : GraphNode) : Prop :=
  ∃ t, n.chain = dataOf n :: t ∧ (dataOf n :: t).Nodup ∧ ∀ p ∈ t, p ∈ ex

/-- `ChainInv` is monotone in the explored set. -/
theorem chainInv_mono (ex : List Pos) (p : Pos) (n : GraphNode)
    (h : ChainInv GraphNode.data ex n) : ChainInv GraphNode.data (addPos ex p) n := by
  obtain ⟨t, h1, h2, h3⟩ := h
  exact ⟨t, h1, h2, fun q hq => (mem_addPos ex p q).mpr (Or.inr (h3 q hq))⟩

/-- A child produced by `expandNode` whose position avoids the updated
explored set keeps the invariant. -/
theorem chainInv_child (m : Maze) (ex : List Pos) (node c : GraphNode)
    (hc : c ∈ expandNode m node)
    (hnotin : c.data ∉ addPos ex node.data)
    (hinv : ChainInv GraphNode.data ex node) :
    ChainInv GraphNode.data (addPos ex node.data) c := by
  obtain ⟨d, _, _, _, rfl⟩ := (expandNode_mem_iff m node c).mp hc
  obtain ⟨t, h1, h2, h3⟩ := hinv
  refine ⟨node.chain, rfl, ?_, ?_⟩
  · rw [List.nodup_cons]
    refine ⟨?_, by rw [h1]; exact h2⟩
    intro hmem
    apply hnotin
    rw [h1] at hmem
    rcases List.mem_cons.mp hmem with h | h
    · rw [GraphNode.data] at h ⊢
      rw [h]
      exact (mem_addPos ex node.data node.data).mpr (Or.inl rfl)
    · exact (mem_addPos ex node.data _).mpr (Or.inr (h3 _ h))
  · intro p hp
    rw [h1] at hp
    rcases List.mem_cons.mp hp with h | h
    · exact (mem_addPos ex node.data p).mpr (Or.inl h)
    · exact (mem_addPos ex node.data p).mpr (Or.inr (h3 _ h))

/-- A successful `dllRemove` returns a member and a sublist. -/
theorem dllRemove_ok_mem (l : List GraphNode) (idx : ℤ) (x : GraphNode)
    (r : List GraphNode) (h : dllRemove l idx = .ok (x, r)) :
    x ∈ l ∧ ∀ y ∈ r, y ∈ l := by
  unfold dllRemove at h
  by_cases hg : idx.natAbs > l.length
  · simp [hg] at h
  · simp only [hg, if_false] at h
    generalize (if idx < 0 then ((l.length : ℤ) + idx) else idx).toNat = nn at h
    by_cases h0 : nn = 0
    · simp only [h0, if_true] at h
      cases l with
      | nil => simp at h
      | cons a as =>
        simp only [Except.ok.injEq, Prod.mk.injEq] at h
        obtain ⟨rfl, rfl⟩ := h
        exact ⟨List.mem_cons_self _ _, fun y hy => List.mem_cons_of_mem _ hy⟩
    · simp only [h0, if_false] at h
      by_cases hlast : nn = l.length - 1
      · simp only [hlast, if_true] at h
        simp only [Except.ok.injEq, Prod.mk.injEq] at h
        obtain ⟨hx, rfl⟩ := h
        constructor
        · cases l with
          | nil => exact absurd (by simpa using hlast) h0
          | cons a as =>
            rw [List.getLast?_eq_getLast _ (by simp)] at hx
            simp only [Option.getD_some] at hx
            rw [← hx]
            exact List.getLast_mem _
        · exact fun y hy => List.dropLast_subset l hy
      · simp only [hlast, if_false] at h
        by_cases hmid : nn < l.length
        · simp only [hmid, if_true] at h
          simp only [Except.ok.injEq, Prod.mk.injEq] at h
          obtain ⟨hx, rfl⟩ := h
          constructor
          · cases hget : l.get? nn with
            | none =>
              rw [List.get?_eq_none] at hget
              omega
            | some a =>
              rw [hget] at hx
              simp only [Option.getD_some] at hx
              rw [← hx]
              exact List.get?_mem hget
          · exact fun y hy => List.eraseIdx_subset _ _ hy
        · simp [hmid] at h

/-- If every frontier node satisfies `ChainInv`, the solution path
returned by the DFS/BFS loop has no repeated position. -/
theorem uninformedLoop_sol_nodup (m : Maze) (index : ℤ) :
    ∀ (fuel : ℕ) (stack : List GraphNode) (ex : List Pos),
      (∀ nd ∈ stack, ChainInv GraphNode.data ex nd) →
      ∀ sol ex2, uninformedLoop m index fuel stack ex = .ok sol ex2 →
        sol.Nodup := by
  intro fuel
  induction fuel with
  | zero =>
    intro stack ex _ sol ex2 h
    rw [uninformedLoop] at h
    by_cases hemp : stack.isEmpty = true
    · rw [if_pos hemp] at h; simp at h
    · rw [if_neg hemp] at h; simp at h
  | succ fuel ih =>
    intro stack ex hinv sol ex2 h
    rw [uninformedLoop] at h
    by_cases hemp : stack.isEmpty = true
    · rw [if_pos hemp] at h; simp at h
    · rw [if_neg hemp] at h
      cases hrem : dllRemove stack index with

      | error e => rw [hrem] at h; simp at h
      | ok pr =>
        obtain ⟨node, rest⟩ := pr
        rw [hrem] at h
        simp only at h
        obtain ⟨hmem, hsub⟩ := dllRemove_ok_mem stack index node rest hrem
        have hinvn := hinv node hmem
        by_cases hstop : node.data = m.stop
        · rw [if_pos hstop] at h
          simp only [USolveRes.ok.injEq] at h
          obtain ⟨rfl, _⟩ := h
          obtain ⟨t, h1, h2, _⟩ := hinvn
          rw [h1]
          exact h2
        · rw [if_neg hstop] at h
          refine ih _ _ ?_ sol ex2 h
          intro nd hnd
          rcases List.mem_append.mp hnd with hnd | hnd
          · exact chainInv_mono ex node.data nd (hinv nd (hsub nd hnd))
          · rw [List.mem_filter] at hnd
            obtain ⟨hnd, hcond⟩ := hnd
            simp only [Bool.and_eq_true, decide_eq_true_eq] at hcond
            exact chainInv_child m ex node nd hnd hcond.1 hinvn

/-- If every queued node satisfies `ChainInv`, a node found by the
informed loop (with the inherited single-step expansion) has a
duplicate-free chain. -/
theorem informedGo_found_nodup {κ : Type} (m : Maze) (mkKey : GraphNode → κ)
    (lt : κ → κ → Bool) :
    ∀ (fuel : ℕ) (cs : List ℕ) (q : List (κ × GraphNode)) (ex : List Pos),
      (∀ e ∈ q, ChainInv GraphNode.data ex e.2) →
      ∀ n, (informedGo m.stop GraphNode.data (expandNode m) mkKey lt
              fuel cs q ex).found = some n →
        n.chain.Nodup := by
  intro fuel
  induction fuel with
  | zero =>
    intro cs q ex _ n h
    rw [informedGo] at h
    simp at h
  | succ fuel ih =>
    intro cs q ex hinv n h
    rw [informedGo] at h
    by_cases hemp : q.isEmpty = true
    · rw [if_pos hemp] at h; simp at h
    · rw [if_neg hemp] at h
      cases hget : q.get? ((selectable lt q).getD
        (cs.headD 0 % (selectable lt q).length) 0) with
      | none => rw [hget] at h; simp at h
      | some e =>
        obtain ⟨k, node⟩ := e
        rw [hget] at h
        simp only at h
        have hmemq : (k, node) ∈ q := List.get?_mem hget
        have hinvn := hinv _ hmemq
        by_cases hstop : GraphNode.data node = m.stop
        · rw [if_pos hstop] at h
          simp only [Option.some.injEq] at h
          subst h
          obtain ⟨t, h1, h2, _⟩ := hinvn
          rw [h1]
          exact h2
        · rw [if_neg hstop] at h
          refine ih cs.tail _ _ ?_ n h
          intro e he
          rcases List.mem_append.mp he with he | he
          · exact chainInv_mono ex node.data e.2
              (hinv e (List.eraseIdx_subset _ _ he))
          · rw [List.mem_map] at he
            obtain ⟨c, hc, rfl⟩ := he
            rw [List.mem_filter] at hc
            obtain ⟨hc, hcond⟩ := hc
            simp only [decide_eq_true_eq] at hcond
            exact chainInv_child m ex node c hc hcond hinvn

/-! ### The binary heap: permutation facts -/

/-- Counting after a `set`. -/
theorem count_set_aux {α : Type} [DecidableEq α] (l : List α) :
    ∀ (n : ℕ) (a : α), n < l.length → ∀ b : α,
      (l.set n a).count b + (if l.getD n a = b then 1 else 0)
        = l.count b + (if a = b then 1 else 0) := by
  induction l with
  | nil => intro n a h; simp at h
  | cons x xs ih =>
    intro n a h b
    cases n with
    | zero => simp [List.count_cons]; split_ifs <;> omega
    | succ n =>
      simp only [List.set_cons_succ, List.count_cons, List.getD_cons_succ]
      have := ih n a (by simpa using h) b
      split_ifs at this ⊢ <;> omega

/-- `swapIdx` permutes the list. -/
theorem swapIdx_perm (l : List BTNode) (i j : ℕ) : (swapIdx l i j).Perm l := by
  cases hi : l.get? i with
  | none =>
    have : swapIdx l i j = l := by unfold swapIdx; rw [hi]
    rw [this]
  | some x =>
    cases hj : l.get? j with
    | none =>
      have : swapIdx l i j = l := by unfold swapIdx; rw [hi, hj]
      rw [this]
    | some y =>
      have hswap : swapIdx l i j = (l.set i y).set j x := by
        unfold swapIdx; rw [hi, hj]
      rw [hswap]
      have hi' : i < l.length := (List.get?_eq_some.mp hi).1
      have hj' : j < l.length := (List.get?_eq_some.mp hj).1
      have hxi : l.getD i y = x := by
        unfold List.getD
        rw [List.get?_eq_getElem?] at hi ⊢
        rw [hi]; rfl
      have hyj : l.getD j x = y := by
        unfold List.getD
        rw [List.get?_eq_getElem?] at hj ⊢
        rw [hj]; rfl
      rw [List.perm_iff_count]
      intro b
      have hlen : j < (l.set i y).length := by simpa using hj'
      have c2 := count_set_aux (l.set i y) j x hlen b
      have c1 := count_set_aux l i y hi' b
      by_cases hij : i = j
      · subst hij
        have hxy : x = y := by rw [hi] at hj; exact Option.some_injective _ hj
        subst hxy
        have hset : (l.set i x).getD i x = x := by
          unfold List.getD
          rw [List.get?_eq_getElem?, List.getElem?_set]
          simp [hi']
        rw [hset] at c2
        rw [hxi] at c1
        split_ifs at c1 c2 ⊢ <;> omega
      · have hset : (l.set i y).getD j x = l.getD j x := by
          unfold List.getD
          rw [List.get?_eq_getElem?, List.get?_eq_getElem?, List.getElem?_set]
          simp [hij]
        rw [hset, hyj] at c2
        rw [hxi] at c1
        split_ifs at c1 c2 ⊢ <;> omega

/-- `siftup` permutes the heap. -/
theorem siftup_perm (l : List BTNode) (i : ℕ) : (siftup l i).Perm l := by
  induction l, i using siftup.induct with
  | case1 l => rw [siftup]; simp
  | case2 l i h p hk => rw [siftup]; simp [h, hk]
  | case3 l i h p hk ih =>
    rw [siftup]
    simp only [h, hk, if_false]
    exact ih.trans (swapIdx_perm l i p)

/-- `siftdown` permutes the heap. -/
theorem siftdown_perm (l : List BTNode) (i : ℕ) : (siftdown l i).Perm l := by
  induction l, i using siftdown.induct with
  | case1 l i h => rw [siftdown]; simp [h]
  | case2 l i h ih =>
    rw [siftdown]
    simp only [h, dif_neg, if_false]
    exact ih.trans (swapIdx_perm l i (sdTarget l i))

/-! ### The binary heap: the min-heap invariant -/

/-- The min-heap property of the array layout: every non-root entry is
at least its parent `(i-1)/2`. -/
def HeapInv (l : List BTNode) : Prop :=
  ∀ j, 0 < j → j < l.length → keyD l ((j - 1) / 2) ≤ keyD l j

/-- The key at an index that is present. -/
theorem keyD_get (l : List BTNode) (t : ℕ) (z : BTNode) (h : l.get? t = some z) :
    keyD l t = z.key := by
  unfold keyD
  rw [h]
  rfl

/-- Keys after a swap. -/
theorem keyD_swapIdx (l : List BTNode) (i j : ℕ) (hi : i < l.length)
    (hj : j < l.length) (t : ℕ) :
    keyD (swapIdx l i j) t =
      if t = j then keyD l i else if t = i then keyD l j else keyD l t := by
  obtain ⟨x, hx⟩ : ∃ x, l.get? i = some x := by
    cases hgi : l.get? i with
    | none => rw [List.get?_eq_none] at hgi; omega
    | some x => exact ⟨x, rfl⟩
  obtain ⟨y, hy⟩ : ∃ y, l.get? j = some y := by
    cases hgj : l.get? j with
    | none => rw [List.get?_eq_none] at hgj; omega
    | some y => exact ⟨y, rfl⟩
  have hswap : swapIdx l i j = (l.set i y).set j x := by
    unfold swapIdx; rw [hx, hy]
  have hxk : keyD l i = x.key := keyD_get l i x hx
  have hyk : keyD l j = y.key := keyD_get l j y hy
  rw [hswap]
  by_cases h1 : t = j
  · subst h1
    rw [if_pos rfl, hxk]
    apply keyD_get
    rw [List.get?_eq_getElem?, List.getElem?_set, if_pos rfl,
      if_pos (by simpa using hj)]
  · rw [if_neg h1]
    by_cases h2 : t = i
    · subst h2
      rw [if_pos rfl, hyk]
      apply keyD_get
      rw [List.get?_eq_getElem?, List.getElem?_set,
        if_neg (by omega : ¬ j = t), List.getElem?_set, if_pos rfl,
        if_pos hi]
    · rw [if_neg h2]
      unfold keyD
      rw [List.get?_eq_getElem?, List.get?_eq_getElem?, List.getElem?_set,
        if_neg (by omega : ¬ j = t), List.getElem?_set,
        if_neg (by omega : ¬ i = t)]

/-- Keys of an appended element's prefix. -/
theorem keyD_append (l : List BTNode) (x : BTNode) (t : ℕ) (h : t < l.length) :
    keyD (l ++ [x]) t = keyD l t := by
  unfold keyD
  rw [List.get?_eq_getElem?, List.get?_eq_getElem?, List.getElem?_append, if_pos h]

/-- The root of a heap is minimal. -/
theorem heapInv_root_min (l : List BTNode) (h : HeapInv l) :
    ∀ i, i < l.length → keyD l 0 ≤ keyD l i := by
  intro i
  induction i using Nat.strong_induction_on with
  | _ i ih =>
    intro hi
    rcases Nat.eq_zero_or_pos i with rfl | hpos
    · exact le_refl _
    · have hpar := h i hpos hi
      have : keyD l 0 ≤ keyD l ((i - 1) / 2) := ih _ (by omega) (by omega)
      exact le_trans this hpar

/-- The precondition under which `_siftup(i)` restores the heap
invariant: all parent links except the one into `i` hold, and `i`'s
parent already bounds `i`'s children. -/
def UpInv (l : List BTNode) (i : ℕ) : Prop :=
  (∀ j, 0 < j → j < l.length → j ≠ i → keyD l ((j - 1) / 2) ≤ keyD l j) ∧
  (0 < i → ∀ c, c < l.length → (c - 1) / 2 = i →
    keyD l ((i - 1) / 2) ≤ keyD l c)

/-- `_siftup` restores the heap invariant. -/
theorem siftup_inv : ∀ (l : List BTNode) (i : ℕ), i < l.length → UpInv l i →
    HeapInv (siftup l i) := by
  intro l i
  induction l, i using siftup.induct with
  | case1 l =>
    intro _ hup
    rw [siftup]
    simp only [if_pos rfl]
    intro j hj hjl
    exact hup.1 j hj hjl (by omega)
  | case2 l i h0 p hk =>
    intro _ hup
    rw [siftup]
    simp only [h0, if_false, if_pos hk]
    intro j hj hjl
    by_cases hji : j = i
    · subst hji
      exact hk
    · exact hup.1 j hj hjl hji
  | case3 l i h0 p hk ih =>
    intro hlen hup
    rw [siftup]
    simp only [h0, if_false, if_neg hk]
    push_neg at hk
    have hpd : p = (i - 1) / 2 := rfl
    have hple : p < i := by omega
    have hplen : p < l.length := by omega
    have hswlen : (swapIdx l i p).length = l.length :=
      (swapIdx_perm l i p).length_eq
    have hkey := keyD_swapIdx l i p hlen hplen
    refine ih (by omega) ⟨?_, ?_⟩
    · intro j hj hjl hjp
      rw [hswlen] at hjl
      by_cases hji : j = i
      · subst hji
        rw [← hpd, hkey p, hkey j, if_pos rfl, if_neg (by omega : ¬ j = p),
          if_pos rfl]
        exact le_of_lt hk
      · have hkj : keyD (swapIdx l i p) j = keyD l j := by
          rw [hkey j, if_neg hjp, if_neg hji]
        rw [hkj]
        by_cases hpj : (j - 1) / 2 = i
        · rw [hkey ((j - 1) / 2), if_neg (by omega : ¬ (j - 1) / 2 = p),
            if_pos hpj]
          have := hup.2 (by omega) j hjl hpj
          rw [← hpd] at this
          exact this
        · by_cases hpp : (j - 1) / 2 = p
          · rw [hkey ((j - 1) / 2), if_pos hpp]
            have h1 := hup.1 j hj hjl hji
            rw [hpp] at h1
            exact le_trans (le_of_lt hk) h1
          · rw [hkey ((j - 1) / 2), if_neg hpp, if_neg hpj]
            exact hup.1 j hj hjl hji
    · intro hp0 c hc hcp
      rw [hswlen] at hc
      rw [hkey ((p - 1) / 2), if_neg (by omega : ¬ (p - 1) / 2 = p),
        if_neg (by omega : ¬ (p - 1) / 2 = i), hkey c]
      by_cases hci : c = i
      · rw [hci, if_neg (by omega : ¬ i = p), if_pos rfl]
        exact hup.1 p hp0 hplen (by omega)
      · rw [if_neg (by omega : ¬ c = p), if_neg hci]
        have h1 := hup.1 c (by omega) hc hci
        rw [hcp] at h1
        have h2 := hup.1 p hp0 hplen (by omega : p ≠ i)
        exact le_trans h2 h1

/-- Keys after a `set` at a different index. -/
theorem keyD_set_ne (l : List BTNode) (i : ℕ) (y : BTNode) (t : ℕ) (h : ¬ i = t) :
    keyD (l.set i y) t = keyD l t := by
  unfold keyD
  rw [List.get?_eq_getElem?, List.get?_eq_getElem?, List.getElem?_set, if_neg h]

/-- Keys of `dropLast` agree with the original list. -/
theorem keyD_dropLast (l : List BTNode) (t : ℕ) (h : t < l.length - 1) :
    keyD l.dropLast t = keyD l t := by
  unfold keyD
  rw [List.get?_eq_getElem?, List.get?_eq_getElem?, List.dropLast_eq_take,
    List.getElem?_take, if_pos h]

/-- Appending one element to a heap satisfies the `_siftup`
precondition at the new last index. -/
theorem upInv_append (l : List BTNode) (x : BTNode) (h : HeapInv l) :
    UpInv (l ++ [x]) l.length := by
  constructor
  · intro j hj hjl hjne
    have hlen : (l ++ [x]).length = l.length + 1 := by simp
    have hjlen : j < l.length := by omega
    rw [keyD_append l x j hjlen, keyD_append l x ((j - 1) / 2) (by omega)]
    exact h j hj hjlen
  · intro h0 c hc hcp
    exfalso
    have hlen : (l ++ [x]).length = l.length + 1 := by simp
    omega

/-- `_siftup` after an append yields a heap. -/
theorem heapInv_siftup_append (l : List BTNode) (x : BTNode) (h : HeapInv l) :
    HeapInv (siftup (l ++ [x]) ((l ++ [x]).length - 1)) := by
  have hlen : (l ++ [x]).length = l.length + 1 := by simp
  have h1 : (l ++ [x]).length - 1 = l.length := by omega
  rw [h1]
  exact siftup_inv (l ++ [x]) l.length (by omega) (upInv_append l x h)

/-- `put` preserves the heap invariant. -/
theorem put_heapInv (q : PriorityQueue) (d : GraphNode) (k : ℤ)
    (h : HeapInv q.binaryHeap) : HeapInv (q.put d k).binaryHeap :=
  heapInv_siftup_append q.binaryHeap ⟨d, k⟩ h

/-- Either `_siftdown` found no smaller child, or its `smallest` is an
in-range child strictly below the parent and no larger than every
in-range child. -/
theorem sdTarget_spec (l : List BTNode) (i : ℕ) :
    sdTarget l i = i ∨
    ((sdTarget l i = 2 * i + 1 ∨ sdTarget l i = 2 * i + 2) ∧
     sdTarget l i ≤ l.length - 1 ∧
     keyD l (sdTarget l i) < keyD l i ∧
     ∀ c, (c = 2 * i + 1 ∨ c = 2 * i + 2) → c ≤ l.length - 1 →
       keyD l (sdTarget l i) ≤ keyD l c) := by
  unfold sdTarget
  by_cases h2 : 2 * i + 2 ≤ l.length - 1 ∧ keyD l (2 * i + 2) < keyD l i
  · rw [if_pos h2]
    by_cases h1 : 2 * i + 1 ≤ l.length - 1 ∧ keyD l (2 * i + 1) < keyD l (2 * i + 2)
    · rw [if_pos h1]
      right
      refine ⟨Or.inl rfl, by omega, lt_trans h1.2 h2.2, ?_⟩
      intro c hc hcl
      rcases hc with rfl | rfl
      · exact le_refl _
      · exact le_of_lt h1.2
    · rw [if_neg h1]
      right
      refine ⟨Or.inr rfl, h2.1, h2.2, ?_⟩
      intro c hc hcl
      rcases hc with rfl | rfl
      · push_neg at h1
        exact h1 hcl
      · exact le_refl _
  · rw [if_neg h2]
    by_cases h1 : 2 * i + 1 ≤ l.length - 1 ∧ keyD l (2 * i + 1) < keyD l i
    · rw [if_pos h1]
      right
      refine ⟨Or.inl rfl, h1.1, h1.2, ?_⟩
      intro c hc hcl
      rcases hc with rfl | rfl
      · exact le_refl _
      · push_neg at h2
        exact le_trans (le_of_lt h1.2) (h2 hcl)
    · rw [if_neg h1]
      left
      rfl

/-- When `_siftdown` stops, the parent is at most every in-range
child. -/
theorem sdTarget_self_min (l : List BTNode) (i : ℕ) (h : sdTarget l i = i) :
    ∀ c, (c = 2 * i + 1 ∨ c = 2 * i + 2) → c ≤ l.length - 1 →
      keyD l i ≤ keyD l c := by
  unfold sdTarget at h
  by_cases h2 : 2 * i + 2 ≤ l.length - 1 ∧ keyD l (2 * i + 2) < keyD l i
  · rw [if_pos h2] at h
    by_cases h1 : 2 * i + 1 ≤ l.length - 1 ∧ keyD l (2 * i + 1) < keyD l (2 * i + 2)
    · rw [if_pos h1] at h
      omega
    · rw [if_neg h1] at h
      omega
  · rw [if_neg h2] at h
    by_cases h1 : 2 * i + 1 ≤ l.length - 1 ∧ keyD l (2 * i + 1) < keyD l i
    · rw [if_pos h1] at h
      omega
    · push_neg at h1 h2
      intro c hc hcl
      rcases hc with rfl | rfl
      · exact h1 hcl
      · exact h2 hcl

/-- The precondition under which `_siftdown(i)` restores the heap
invariant: all parent links except those out of `i` hold, and `i`'s
parent already bounds `i`'s children. -/
def DownInv (l : List BTNode) (i : ℕ) : Prop :=
  (∀ j, 0 < j → j < l.length → (j - 1) / 2 ≠ i → keyD l ((j - 1) / 2) ≤ keyD l j) ∧
  (0 < i → ∀ c, c < l.length → (c - 1) / 2 = i →
    keyD l ((i - 1) / 2) ≤ keyD l c)

/-- `_siftdown` restores the heap invariant. -/
theorem siftdown_inv : ∀ (l : List BTNode) (i : ℕ), DownInv l i →
    HeapInv (siftdown l i) := by
  intro l i
  induction l, i using siftdown.induct with
  | case1 l i hs =>
    intro hd
    rw [siftdown, dif_pos hs]
    intro j hj hjl
    by_cases hpj : (j - 1) / 2 = i
    · rw [hpj]
      exact sdTarget_self_min l i hs j (by omega) (by omega)
    · exact hd.1 j hj hjl hpj
  | case2 l i hs ih =>
    intro hd
    rw [siftdown, dif_neg hs]
    obtain ⟨hmem, hrange, hlt, hmin⟩ := (sdTarget_spec l i).resolve_left hs
    have hsl : sdTarget l i < l.length := by omega
    have hil : i < l.length := by omega
    have hswlen := (swapIdx_perm l i (sdTarget l i)).length_eq
    have hkey := keyD_swapIdx l i (sdTarget l i) hil hsl
    apply ih
    constructor
    · intro j hj hjl hjp
      rw [hswlen] at hjl
      rw [hkey j, hkey ((j - 1) / 2)]
      by_cases hjs : j = sdTarget l i
      · have hpj : (j - 1) / 2 = i := by omega
        rw [if_pos hjs, if_neg hjp, if_pos hpj]
        exact le_of_lt hlt
      · rw [if_neg hjs]
        by_cases hji : j = i
        · have h0i : 0 < i := by omega
          rw [if_pos hji, if_neg hjp, if_neg (by omega : ¬ (j - 1) / 2 = i)]
          have hgp := hd.2 h0i (sdTarget l i) hsl (by omega)
          rw [hji]
          exact hgp
        · rw [if_neg hji]
          by_cases hpi : (j - 1) / 2 = i
          · rw [if_neg hjp, if_pos hpi]
            exact hmin j (by omega) (by omega)
          · rw [if_neg hjp, if_neg hpi]
            exact hd.1 j hj hjl hpi
    · intro hs0 c hc hcp
      rw [hswlen] at hc
      rw [hkey c, hkey ((sdTarget l i - 1) / 2)]
      have hpsi : (sdTarget l i - 1) / 2 = i := by omega
      rw [if_neg (by omega : ¬ (sdTarget l i - 1) / 2 = sdTarget l i), if_pos hpsi,
        if_neg (by omega : ¬ c = sdTarget l i), if_neg (by omega : ¬ c = i)]
      have hpar := hd.1 c (by omega) hc (by omega)
      rw [hcp] at hpar
      exact hpar

/-- Specification of a successful `pop` on a heap: the returned entry
was the root, its key bounds every key in the queue, the remaining heap
is a permutation of the old heap's tail and is again a heap, and the
reference-count dict is updated by decrement-or-delete. -/
theorem pop_ok_spec (q : PriorityQueue) (d : GraphNode) (k : ℤ) (q' : PriorityQueue)
    (hh : HeapInv q.binaryHeap) (h : q.pop = .ok d k q') :
    (∃ restH, q.binaryHeap = ⟨d, k⟩ :: restH ∧ q'.binaryHeap.Perm restH) ∧
    (∀ e ∈ q.binaryHeap, k ≤ e.key) ∧
    HeapInv q'.binaryHeap ∧
    (∃ c, dictGet q.content d.data = some c ∧
      q'.content = if c = 1 then dictDrop q.content d.data
        else dictSet q.content d.data (c - 1)) := by
  cases hq : q.binaryHeap with
  | nil =>
    simp only [PriorityQueue.pop, hq] at h
    exact PopRes.noConfusion h
  | cons root rest =>
    simp only [PriorityQueue.pop, hq] at h
    cases hdg : dictGet q.content root.data.data with
    | none =>
      rw [hdg] at h
      simp at h
    | some c =>
      rw [hdg] at h
      simp only [] at h
      injection h with h1 h2 h3
      subst h1
      subst h2
      subst h3
      have hroot : (⟨root.data, root.key⟩ : BTNode) = root := rfl
      have hkey0 : keyD (root :: rest) 0 = root.key := rfl
      rw [hq] at hh
      have hbound : ∀ e ∈ root :: rest, root.key ≤ e.key := by
        intro e he
        obtain ⟨n, hfin⟩ := List.mem_iff_get.mp he
        have hget : (root :: rest).get? n = some e := by
          rw [List.get?_eq_get n.isLt, hfin]
        have hkn : keyD (root :: rest) n = e.key := keyD_get _ _ _ hget
        have := heapInv_root_min (root :: rest) hh n n.isLt
        rw [hkey0, hkn] at this
        exact this
      cases rest with
      | nil =>
        refine ⟨⟨[], by rw [hroot], by simp⟩, hbound, ?_, ?_⟩
        · intro j hj hjl
          simp at hjl
        · exact ⟨c, hdg, rfl⟩
      | cons r1 rs =>
        have hrne : (r1 :: rs) ≠ [] := by simp
        have hlast : (root :: r1 :: rs).getLast? =
            some ((r1 :: rs).getLast hrne) := by
          rw [List.getLast?_eq_getLast _ (by simp), List.getLast_cons hrne]
        have hl0 : ((root :: r1 :: rs).dropLast).set 0
              (((root :: r1 :: rs).getLast?).getD root) =
            ((r1 :: rs).getLast hrne) :: (r1 :: rs).dropLast := by
          rw [hlast, List.dropLast_cons_of_ne_nil hrne]
          rfl
        have hperm0 : (((r1 :: rs).getLast hrne) :: (r1 :: rs).dropLast).Perm
            (r1 :: rs) := by
          have := List.perm_append_singleton ((r1 :: rs).getLast hrne)
            ((r1 :: rs).dropLast)
          rw [List.dropLast_append_getLast hrne] at this
          exact this.symm
        have hlen0 : (((r1 :: rs).getLast hrne) :: (r1 :: rs).dropLast).length =
            rs.length + 1 := by
          simp [List.length_dropLast]
        have hdown : DownInv
            (((r1 :: rs).getLast hrne) :: (r1 :: rs).dropLast) 0 := by
          constructor
          · intro j hj hjl hjp
            rw [hlen0] at hjl
            have hkeq : ∀ t, 0 < t → t < rs.length + 1 →
                keyD (((r1 :: rs).getLast hrne) :: (r1 :: rs).dropLast) t =
                  keyD (root :: r1 :: rs) t := by
              intro t ht htl
              rw [← hl0, keyD_set_ne _ _ _ _ (by omega),
                keyD_dropLast _ _ (by simp; omega)]
            rw [hkeq j hj hjl, hkeq ((j - 1) / 2) (by omega) (by omega)]
            exact hh j hj (by simp; omega)
          · intro h0
            omega
        refine ⟨⟨r1 :: rs, by rw [hroot], ?_⟩, hbound, ?_, ?_⟩
        · show (siftdown _ 0).Perm _
          rw [hl0]
          exact (siftdown_perm _ 0).trans hperm0
        · show HeapInv (siftdown _ 0)
          rw [hl0]
          exact siftdown_inv _ 0 hdown
        · exact ⟨c, hdg, rfl⟩

/-- The first entry produced by `popAllEntries` is the result of a
`pop` on the initial queue. -/
theorem popAll_head (fuel : ℕ) (q : PriorityQueue) (e : GraphNode × ℤ)
    (l : List (GraphNode × ℤ)) (h : popAllEntries fuel q = e :: l) :
    ∃ q', q.pop = .ok e.1 e.2 q' := by
  cases fuel with
  | zero => simp [popAllEntries] at h
  | succ n =>
    rw [popAllEntries] at h
    cases hp : q.pop with
    | emptyErr =>
      rw [hp] at h
      simp at h
    | keyErr =>
      rw [hp] at h
      simp at h
    | ok d k q' =>
      rw [hp] at h
      simp only [] at h
      have h1 : (d, k) = e := by
        injection h with h1 h2
      subst h1
      exact ⟨q', rfl⟩


/-- Keys popped by draining the custom priority queue come out in
non-decreasing order, for any heap satisfying the invariant. -/
theorem popAll_chain (fuel : ℕ) : ∀ (q : PriorityQueue), HeapInv q.binaryHeap →
    List.Chain' (fun a b => a ≤ b) ((popAllEntries fuel q).map Prod.snd) := by
  induction fuel with
  | zero =>
    intro q hh
    simp [popAllEntries]
  | succ n ih =>
    intro q hh
    rw [popAllEntries]
    cases hp : q.pop with
    | emptyErr => simp
    | keyErr => simp
    | ok d k q' =>
      simp only []
      obtain ⟨⟨restH, hqh, hperm⟩, hmin, hh', _⟩ := pop_ok_spec q d k q' hh hp
      rw [List.map_cons, List.chain'_cons']
      constructor
      · intro b hb
        rw [Option.mem_def, List.head?_map] at hb
        cases hpa : popAllEntries n q' with
        | nil =>
          rw [hpa] at hb
          simp at hb
        | cons e2 l2 =>
          rw [hpa] at hb
          simp only [List.head?_cons, Option.map_some] at hb
          obtain ⟨q2, hp2⟩ := popAll_head n q' e2 l2 hpa
          obtain ⟨⟨restH2, hq2h, _⟩, _, _, _⟩ := pop_ok_spec q' e2.1 e2.2 q2 hh' hp2
          have hmem2 : (⟨e2.1, e2.2⟩ : BTNode) ∈ q'.binaryHeap := by
            rw [hq2h]
            exact List.mem_cons_self _ _
          have hmemq : (⟨e2.1, e2.2⟩ : BTNode) ∈ q.binaryHeap := by
            rw [hqh]
            exact List.mem_cons_of_mem _ (hperm.mem_iff.mp hmem2)
          have hkb := hmin _ hmemq
          injection hb with hb1
          rw [← hb1]
          exact hkb
      · exact ih q' hh'

/-- Every queue reachable by `put`/`pop` operations satisfies the heap
invariant. -/
theorem runQOpsFrom_heapInv (ops : List QOp) : ∀ (q : PriorityQueue),
    HeapInv q.binaryHeap → HeapInv (runQOpsFrom ops q).binaryHeap := by
  induction ops with
  | nil => exact fun q hh => hh
  | cons op rest ih =>
    intro q hh
    cases op with
    | put d k => exact ih _ (put_heapInv q d k hh)
    | pop =>
      cases hp : q.pop with
      | emptyErr =>
        simp only [runQOpsFrom, hp]
        exact hh
      | keyErr =>
        simp only [runQOpsFrom, hp]
        exact hh
      | ok d k q' =>
        simp only [runQOpsFrom, hp]
        exact ih _ (pop_ok_spec q d k q' hh hp).2.2.1

/-- The empty heap satisfies the invariant. -/
theorem heapInv_empty : HeapInv PriorityQueue.empty.binaryHeap := by
  intro j hj hjl
  simp [PriorityQueue.empty] at hjl

/-- Any queue built by `runQOps` satisfies the heap invariant. -/
theorem runQOps_heapInv (ops : List QOp) : HeapInv (runQOps ops).binaryHeap :=
  runQOpsFrom_heapInv ops PriorityQueue.empty heapInv_empty

/-- `put`s starting from a heap keep the heap invariant. -/
theorem foldl_put_heapInv : ∀ (l : List (GraphNode × ℤ)) (q : PriorityQueue),
    HeapInv q.binaryHeap →
    HeapInv (l.foldl (fun q e => q.put e.1 e.2) q).binaryHeap := by
  intro l
  induction l with
  | nil => exact fun q hh => hh
  | cons e rest ih =>
    intro q hh
    exact ih _ (put_heapInv q e.1 e.2 hh)

/-- A queue built by `put`s alone satisfies the heap invariant. -/
theorem putAll_heapInv (l : List (GraphNode × ℤ)) : HeapInv (putAll l).binaryHeap :=
  foldl_put_heapInv l PriorityQueue.empty heapInv_empty

/-- The number of not-yet-popped entries holding position `p`. -/
def liveCount (q : PriorityQueue) (p : Pos) : ℕ :=
  q.binaryHeap.countP (fun e => decide (e.data.data = p))

/-- The reference-count invariant of the custom queue: `_content` has
no duplicate keys and maps exactly the positions with a live entry to
their (positive) live-entry count. -/
def QInv (q : PriorityQueue) : Prop :=
  (q.content.map Prod.fst).Nodup ∧
  ∀ p : Pos, dictGet q.content p =
    if liveCount q p = 0 then none else some (liveCount q p)

/-- Reading back the key just written. -/
theorem dictGet_dictSet_self (d : List (Pos × ℕ)) (p : Pos) (v : ℕ) :
    dictGet (dictSet d p v) p = some v := by
  induction d with
  | nil => simp [dictSet, dictGet]
  | cons e rest ih =>
    obtain ⟨qq, w⟩ := e
    by_cases h : qq = p
    · simp [dictSet, h, dictGet]
    · simp [dictSet, h, dictGet, ih]

/-- Writing one key leaves the others unchanged. -/
theorem dictGet_dictSet_ne (d : List (Pos × ℕ)) (p : Pos) (v : ℕ) (r : Pos)
    (h : r ≠ p) : dictGet (dictSet d p v) r = dictGet d r := by
  induction d with
  | nil => simp [dictSet, dictGet, Ne.symm h]
  | cons e rest ih =>
    obtain ⟨qq, w⟩ := e
    by_cases hq : qq = p
    · subst hq
      simp [dictSet, dictGet, Ne.symm h]
    · simp [dictSet, hq, dictGet, ih]

/-- Deleting one key leaves the others unchanged. -/
theorem dictGet_dictDrop_ne (d : List (Pos × ℕ)) (p : Pos) (r : Pos)
    (h : r ≠ p) : dictGet (dictDrop d p) r = dictGet d r := by
  induction d with
  | nil => simp [dictDrop, dictGet]
  | cons e rest ih =>
    obtain ⟨qq, w⟩ := e
    by_cases hq : qq = p
    · subst hq
      simp [dictDrop, dictGet, Ne.symm h]
    · simp [dictDrop, hq, dictGet, ih]

/-- A key absent from the association list reads as `none`. -/
theorem dictGet_none_of_not_mem (d : List (Pos × ℕ)) (r : Pos) :
    r ∉ d.map Prod.fst → dictGet d r = none := by
  induction d with
  | nil =>
    intro _
    simp [dictGet]
  | cons e rest ih =>
    obtain ⟨qq, w⟩ := e
    intro h
    simp only [List.map_cons, List.mem_cons] at h
    push_neg at h
    have hqr : ¬ qq = r := fun hh => h.1 hh.symm
    simp [dictGet, hqr, ih h.2]

/-- Deleting the (unique) occurrence of a key makes it read `none`. -/
theorem dictGet_dictDrop_self (d : List (Pos × ℕ)) (p : Pos) :
    (d.map Prod.fst).Nodup → dictGet (dictDrop d p) p = none := by
  induction d with
  | nil =>
    intro _
    simp [dictDrop, dictGet]
  | cons e rest ih =>
    obtain ⟨qq, w⟩ := e
    intro hn
    simp only [List.map_cons, List.nodup_cons] at hn
    by_cases hq : qq = p
    · rw [show dictDrop ((qq, w) :: rest) p = rest from by simp [dictDrop, hq]]
      rw [← hq]
      exact dictGet_none_of_not_mem rest qq hn.1
    · rw [show dictDrop ((qq, w) :: rest) p = (qq, w) :: dictDrop rest p from by
        simp [dictDrop, hq]]
      simp [dictGet, hq, ih hn.2]

/-- `dictDrop` produces a sublist. -/
theorem dictDrop_sublist (d : List (Pos × ℕ)) (p : Pos) :
    List.Sublist (dictDrop d p) d := by
  induction d with
  | nil => simp [dictDrop]
  | cons e rest ih =>
    obtain ⟨qq, w⟩ := e
    by_cases hq : qq = p
    · rw [show dictDrop ((qq, w) :: rest) p = rest from by simp [dictDrop, hq]]
      exact List.sublist_cons_self _ _
    · rw [show dictDrop ((qq, w) :: rest) p = (qq, w) :: dictDrop rest p from by
        simp [dictDrop, hq]]
      exact List.Sublist.cons₂ _ ih

/-- Keys after a `dictSet` come from the old keys or are the new key. -/
theorem mem_keys_dictSet (d : List (Pos × ℕ)) (p : Pos) (v : ℕ) (r : Pos) :
    r ∈ (dictSet d p v).map Prod.fst → r ∈ d.map Prod.fst ∨ r = p := by
  induction d with
  | nil =>
    intro h
    simp [dictSet] at h
    exact Or.inr h
  | cons e rest ih =>
    obtain ⟨qq, w⟩ := e
    intro h
    by_cases hq : qq = p
    · rw [show dictSet ((qq, w) :: rest) p v = (p, v) :: rest from by
        simp [dictSet, hq]] at h
      rw [List.map_cons, List.mem_cons] at h
      rcases h with h | h
      · exact Or.inr h
      · exact Or.inl (by rw [List.map_cons]; exact List.mem_cons_of_mem _ h)
    · rw [show dictSet ((qq, w) :: rest) p v = (qq, w) :: dictSet rest p v from by
        simp [dictSet, hq]] at h
      rw [List.map_cons, List.mem_cons] at h
      rcases h with h | h
      · exact Or.inl (by rw [List.map_cons]; exact List.mem_cons.mpr (Or.inl h))
      · rcases ih h with h' | h'
        · exact Or.inl (by rw [List.map_cons]; exact List.mem_cons_of_mem _ h')
        · exact Or.inr h'

/-- `dictSet` preserves key uniqueness. -/
theorem nodup_keys_dictSet (d : List (Pos × ℕ)) (p : Pos) (v : ℕ) :
    (d.map Prod.fst).Nodup → ((dictSet d p v).map Prod.fst).Nodup := by
  induction d with
  | nil =>
    intro _
    simp [dictSet]
  | cons e rest ih =>
    obtain ⟨qq, w⟩ := e
    intro h
    rw [List.map_cons, List.nodup_cons] at h
    by_cases hq : qq = p
    · rw [show dictSet ((qq, w) :: rest) p v = (p, v) :: rest from by
        simp [dictSet, hq]]
      rw [List.map_cons, List.nodup_cons, ← hq]
      exact h
    · rw [show dictSet ((qq, w) :: rest) p v = (qq, w) :: dictSet rest p v from by
        simp [dictSet, hq]]
      rw [List.map_cons, List.nodup_cons]
      refine ⟨?_, ih h.2⟩
      intro hmem
      rcases mem_keys_dictSet rest p v qq hmem with h' | h'
      · exact h.1 h'
      · exact hq h'

/-- The `_content` update performed by `put`, in closed form. -/
theorem put_content_eq (q : PriorityQueue) (d : GraphNode) (k : ℤ) :
    (q.put d k).content =
      dictSet q.content d.data ((dictGet q.content d.data).getD 0 + 1) := by
  show (match dictGet q.content d.data with
    | none => dictSet q.content d.data 1
    | some c => dictSet q.content d.data (c + 1)) = _
  cases dictGet q.content d.data <;> rfl

/-- Live counts after a `put`. -/
theorem put_liveCount (q : PriorityQueue) (d : GraphNode) (k : ℤ) (p : Pos) :
    liveCount (q.put d k) p =
      liveCount q p + (if d.data = p then 1 else 0) := by
  unfold liveCount
  have hperm : (q.put d k).binaryHeap.Perm (q.binaryHeap ++ [⟨d, k⟩]) :=
    siftup_perm _ _
  rw [hperm.countP_eq, List.countP_append]
  by_cases hdp : d.data = p
  · simp [List.countP_cons, hdp]
  · simp [List.countP_cons, hdp]

/-- `put` preserves the reference-count invariant. -/
theorem put_qinv (q : PriorityQueue) (d : GraphNode) (k : ℤ) (h : QInv q) :
    QInv (q.put d k) := by
  constructor
  · rw [put_content_eq]
    exact nodup_keys_dictSet _ _ _ h.1
  · intro p
    rw [put_content_eq]
    by_cases hdp : d.data = p
    · subst hdp
      rw [dictGet_dictSet_self]
      have hl := put_liveCount q d k d.data
      rw [if_pos rfl] at hl
      have hget : (dictGet q.content d.data).getD 0 = liveCount q d.data := by
        rw [h.2 d.data]
        by_cases h0 : liveCount q d.data = 0
        · rw [if_pos h0, h0]
          rfl
        · rw [if_neg h0]
          rfl
      rw [hget, hl, if_neg (by omega)]
    · rw [dictGet_dictSet_ne _ _ _ _ (Ne.symm hdp), h.2 p]
      have hl := put_liveCount q d k p
      rw [if_neg hdp, add_zero] at hl
      rw [hl]

/-- Live counts after a successful `pop`. -/
theorem pop_liveCount (q : PriorityQueue) (d : GraphNode) (k : ℤ)
    (q' : PriorityQueue) (hh : HeapInv q.binaryHeap) (hp : q.pop = .ok d k q')
    (p : Pos) :
    liveCount q p = liveCount q' p + (if d.data = p then 1 else 0) := by
  obtain ⟨⟨restH, hqh, hperm⟩, _, _, _⟩ := pop_ok_spec q d k q' hh hp
  unfold liveCount
  rw [hqh, hperm.countP_eq, List.countP_cons]
  by_cases hdp : d.data = p
  · simp [hdp]
  · simp [hdp]

/-- `pop` preserves the reference-count invariant. -/
theorem pop_qinv (q : PriorityQueue) (d : GraphNode) (k : ℤ) (q' : PriorityQueue)
    (hh : HeapInv q.binaryHeap) (h : QInv q) (hp : q.pop = .ok d k q') :
    QInv q' := by
  obtain ⟨⟨restH, hqh, hperm⟩, _, _, ⟨c, hdg, hcon⟩⟩ := pop_ok_spec q d k q' hh hp
  have hc : c = liveCount q d.data ∧ liveCount q d.data ≠ 0 := by
    have hge := h.2 d.data
    rw [hdg] at hge
    by_cases h0 : liveCount q d.data = 0
    · rw [if_pos h0] at hge
      exact absurd hge (by simp)
    · rw [if_neg h0] at hge
      exact ⟨(Option.some.inj hge), h0⟩
  have hlc := pop_liveCount q d k q' hh hp
  constructor
  · rw [hcon]
    split_ifs
    · exact h.1.sublist ((dictDrop_sublist _ _).map Prod.fst)
    · exact nodup_keys_dictSet _ _ _ h.1
  · intro p
    by_cases hdp : d.data = p
    · subst hdp
      have hl := hlc d.data
      rw [if_pos rfl] at hl
      rw [hcon]
      by_cases hc1 : c = 1
      · rw [if_pos hc1, dictGet_dictDrop_self _ _ h.1,
          if_pos (by omega : liveCount q' d.data = 0)]
      · rw [if_neg hc1, dictGet_dictSet_self,
          if_neg (by omega : ¬ liveCount q' d.data = 0)]
        have : c - 1 = liveCount q' d.data := by omega
        rw [this]
    · have hl := hlc p
      rw [if_neg hdp, add_zero] at hl
      have hsame : dictGet q'.content p = dictGet q.content p := by
        rw [hcon]
        split_ifs
        · exact dictGet_dictDrop_ne _ _ _ (Ne.symm hdp)
        · exact dictGet_dictSet_ne _ _ _ _ (Ne.symm hdp)
      rw [hsame, h.2 p, hl]

/-- The empty queue satisfies the reference-count invariant. -/
theorem qinv_empty : QInv PriorityQueue.empty := by
  constructor
  · simp [PriorityQueue.empty]
  · intro p
    simp [PriorityQueue.empty, dictGet, liveCount]

/-- Every queue reachable by `put`/`pop` operations satisfies the
reference-count invariant. -/
theorem runQOpsFrom_qinv (ops : List QOp) : ∀ (q : PriorityQueue),
    HeapInv q.binaryHeap → QInv q → QInv (runQOpsFrom ops q) := by
  induction ops with
  | nil => exact fun q _ hq => hq
  | cons op rest ih =>
    intro q hh hq
    cases op with
    | put d k =>
      exact ih _ (put_heapInv q d k hh) (put_qinv q d k hq)
    | pop =>
      cases hp : q.pop with
      | emptyErr =>
        simp only [runQOpsFrom, hp]
        exact hq
      | keyErr =>
        simp only [runQOpsFrom, hp]
        exact hq
      | ok d k q' =>
        simp only [runQOpsFrom, hp]
        exact ih _ (pop_ok_spec q d k q' hh hp).2.2.1 (pop_qinv q d k q' hh hq hp)

/-- Any queue built by `runQOps` satisfies the reference-count
invariant. -/
theorem runQOps_qinv (ops : List QOp) : QInv (runQOps ops) :=
  runQOpsFrom_qinv ops PriorityQueue.empty heapInv_empty qinv_empty

/-! ### Helper definitions and evaluations for the claim theorems -/

/-- Observation: did `UninformedSolver._solve_maze` end in the
`raise ValueError('No solution found.')` branch? -/
def USolveRes.isNoSolution : USolveRes → Bool
  | .noSolution _ => true
  | _ => false

/-- The in-bounds test AS THE SPEC WORDS IT for C7 ("in-bounds of the
grid"): `0 <= row < height and 0 <= column < width`.  This definition is
modelled from the spec's words, to be compared with the source's
`Maze.interior`; it is not code of the repository. -/
def specInBounds (m : Maze) (p : Pos) : Bool :=
  0 ≤ p.1 && p.1 < m.height && 0 ≤ p.2 && p.2 < m.width

/-- Three distinct nodes used to exercise the custom queue with equal
keys. -/
def cexN1 : GraphNode := GraphNode.root (1, 1) none 0
/-- Second node for the equal-key queue runs. -/
def cexN2 : GraphNode := GraphNode.root (1, 2) none 0
/-- Third node for the equal-key queue runs. -/
def cexN3 : GraphNode := GraphNode.root (1, 3) none 0

/-- `_siftup(0)` is the identity. -/
theorem siftup_zero (l : List BTNode) : siftup l 0 = l := by
  rw [siftup]
  norm_num

/-- `_siftup` stops when the parent already bounds the child. -/
theorem siftup_stay (l : List BTNode) (i : ℕ) (h0 : ¬ i = 0)
    (h : keyD l ((i - 1) / 2) ≤ keyD l i) : siftup l i = l := by
  rw [siftup]
  rw [if_neg h0, if_pos h]

/-- `_siftdown` stops when no child is smaller. -/
theorem siftdown_stay (l : List BTNode) (i : ℕ) (h : sdTarget l i = i) :
    siftdown l i = l := by
  rw [siftdown, dif_pos h]

/-- One unfolding of `popAllEntries` along a successful `pop`. -/
theorem popAllEntries_cons (n : ℕ) (q : PriorityQueue) (d : GraphNode) (k : ℤ)
    (q' : PriorityQueue) (h : q.pop = .ok d k q') :
    popAllEntries (n + 1) q = (d, k) :: popAllEntries n q' := by
  rw [popAllEntries, h]

/-- Full evaluation of the custom queue on three equal-key puts: the
heap keeps insertion order `n1, n2, n3` (no sift moves anything), but
the first `pop` moves the LAST element `n3` to the root, so the pop
order is `n1, n3, n2`. -/
theorem popAll_eval_eqkeys :
    popAllEntries 3 (putAll [(cexN1, 5), (cexN2, 5), (cexN3, 5)]) =
      [(cexN1, 5), (cexN3, 5), (cexN2, 5)] := by
  have e1 : PriorityQueue.empty.put cexN1 5 = ⟨[⟨cexN1, 5⟩], [((1, 1), 1)]⟩ := by
    show PriorityQueue.mk (siftup [⟨cexN1, 5⟩] 0) [((1, 1), 1)] = _
    rw [siftup_zero]
  have e2 : (⟨[⟨cexN1, 5⟩], [((1, 1), 1)]⟩ : PriorityQueue).put cexN2 5 =
      ⟨[⟨cexN1, 5⟩, ⟨cexN2, 5⟩], [((1, 1), 1), ((1, 2), 1)]⟩ := by
    show PriorityQueue.mk (siftup [⟨cexN1, 5⟩, ⟨cexN2, 5⟩] 1)
      [((1, 1), 1), ((1, 2), 1)] = _
    rw [siftup_stay _ _ (by norm_num) (by decide)]
  have e3 : (⟨[⟨cexN1, 5⟩, ⟨cexN2, 5⟩], [((1, 1), 1), ((1, 2), 1)]⟩ :
        PriorityQueue).put cexN3 5 =
      ⟨[⟨cexN1, 5⟩, ⟨cexN2, 5⟩, ⟨cexN3, 5⟩],
       [((1, 1), 1), ((1, 2), 1), ((1, 3), 1)]⟩ := by
    show PriorityQueue.mk (siftup [⟨cexN1, 5⟩, ⟨cexN2, 5⟩, ⟨cexN3, 5⟩] 2)
      [((1, 1), 1), ((1, 2), 1), ((1, 3), 1)] = _
    rw [siftup_stay _ _ (by norm_num) (by decide)]
  have hq : putAll [(cexN1, 5), (cexN2, 5), (cexN3, 5)] =
      ⟨[⟨cexN1, 5⟩, ⟨cexN2, 5⟩, ⟨cexN3, 5⟩],
       [((1, 1), 1), ((1, 2), 1), ((1, 3), 1)]⟩ := by
    show ((PriorityQueue.empty.put cexN1 5).put cexN2 5).put cexN3 5 = _
    rw [e1, e2, e3]
  have p1 : (⟨[⟨cexN1, 5⟩, ⟨cexN2, 5⟩, ⟨cexN3, 5⟩],
        [((1, 1), 1), ((1, 2), 1), ((1, 3), 1)]⟩ : PriorityQueue).pop =
      .ok cexN1 5 ⟨[⟨cexN3, 5⟩, ⟨cexN2, 5⟩], [((1, 2), 1), ((1, 3), 1)]⟩ := by
    show PopRes.ok cexN1 5
      ⟨siftdown [⟨cexN3, 5⟩, ⟨cexN2, 5⟩] 0, [((1, 2), 1), ((1, 3), 1)]⟩ = _
    rw [siftdown_stay _ _ (by decide)]
  have p2 : (⟨[⟨cexN3, 5⟩, ⟨cexN2, 5⟩], [((1, 2), 1), ((1, 3), 1)]⟩ :
        PriorityQueue).pop =
      .ok cexN3 5 ⟨[⟨cexN2, 5⟩], [((1, 2), 1)]⟩ := by
    show PopRes.ok cexN3 5 ⟨siftdown [⟨cexN2, 5⟩] 0, [((1, 2), 1)]⟩ = _
    rw [siftdown_stay _ _ (by decide)]
  have p3 : (⟨[⟨cexN2, 5⟩], [((1, 2), 1)]⟩ : PriorityQueue).pop =
      .ok cexN2 5 ⟨[], []⟩ := rfl
  rw [hq]
  rw [show (3 : ℕ) = 2 + 1 from rfl, popAllEntries_cons 2 _ _ _ _ p1]
  rw [show (2 : ℕ) = 1 + 1 from rfl, popAllEntries_cons 1 _ _ _ _ p2]
  rw [show (1 : ℕ) = 0 + 1 from rfl, popAllEntries_cons 0 _ _ _ _ p3]
  rfl

/-- The start node satisfies the chain invariant over an empty explored
set. -/
theorem chainInv_root (p : Pos) :
    ChainInv GraphNode.data [] (GraphNode.root p none 0) :=
  ⟨[], rfl, by simp, by simp⟩

/-! ### The claim theorems -/

/-- C1 (corrected): the A* loop has NO stale-duplicate discard — a
popped entry whose position is already explored is processed exactly
like a fresh one, so a position CAN be expanded (neighbors generated
and pushed) more than once.  On `mazeC1` with the Euclidean heuristic,
EVERY tie-breaking resolution of the standard-library priority queue
reaches a step that pops an already-explored position and still pushes
neighbors. -/
theorem claim_C1_no_stale_discard :
    ∀ cs : List ℕ,
      ∃ s ∈ (astarEuGo mazeC1 60 cs).trace,
        s.wasExplored = true ∧ s.pushed ≠ [] := by
  intro cs
  exact informedChk_sound mazeC1.stop GraphNode.data (expandNode mazeC1)
    (fun n => (n.cost, sqDistTo mazeC1.stop n.data)) ltEu 60
    [((0, sqDistTo mazeC1.stop mazeC1.start), GraphNode.root mazeC1.start none 0)]
    [] (by rfl) cs

/-- C1 counterexample: in the concrete (insertion-order tie-break) run
of Euclidean A* on `mazeC1`, some step pops an already-explored
position and still generates and pushes neighbors — refuting "no
position is ever expanded more than once". -/
theorem claim_C1_cex :
    ∃ s ∈ (astarEuGo mazeC1 60 []).trace,
      s.wasExplored = true ∧ s.pushed ≠ [] := by
  decide

/-- C2 (code bug): on a maze whose start and goal are separated by a
full wall row, no strategy reports a distinguishable `NoSolution`
outcome: DFS and BFS end in the `raise ValueError` branch (a crash,
not a reported outcome), while A* (both heuristics) and JPS fall
through with `found_node = None` and return the EMPTY solution path as
if it were a success. -/
theorem claim_C2_no_nosolution_outcome :
    (solveUninformed mazeC2 (-1) 20).isNoSolution = true ∧
    (solveUninformed mazeC2 0 20).isNoSolution = true ∧
    (astarManGo mazeC2 20 []).found = none ∧
    informedSolution GraphNode.chain (astarManGo mazeC2 20 []).found = [] ∧
    (astarEuGo mazeC2 20 []).found = none ∧
    informedSolution GraphNode.chain (astarEuGo mazeC2 20 []).found = [] ∧
    (jpsGo mazeC2 20 20 []).found = none ∧
    informedSolution JNode.chain (jpsGo mazeC2 20 20 []).found = [] := by
  refine ⟨rfl, rfl, rfl, rfl, rfl, rfl, rfl, rfl⟩

/-- C3 (corrected): JPS path cost does NOT always equal plain A*'s
cost.  On `mazeC3` plain (Manhattan) A* finds a path of cost `8`
while JPS finds one of cost `4 + 2 * sqrt 2 < 8`; both runs are
tie-free, so the outcome does not depend on the tie-breaking. -/
theorem claim_C3_jps_cost_differs :
    (astarManGo mazeC3 40 []).found.map GraphNode.cost = some 8 ∧
    (jpsGo mazeC3 40 40 []).found.map JNode.cost = some (4, 2) ∧
    (4 : ℝ) + 2 * Real.sqrt 2 < 8 ∧
    (astarManGo mazeC3 40 []).trace.all (fun s => s.uniqMin) = true ∧
    (jpsGo mazeC3 40 40 []).trace.all (fun s => s.uniqMin) = true := by
  refine ⟨rfl, rfl, ?_, rfl, rfl⟩
  have hs : Real.sqrt 2 < 2 := (Real.sqrt_lt' (by norm_num)).mpr (by norm_num)
  linarith

/-- C3 counterexample: a maze on which both strategies succeed and the
two total path costs (A*'s integer cost, JPS's `a + b * sqrt 2` cost)
differ. -/
theorem claim_C3_cex :
    ∃ ca : ℕ, ∃ cj : ℕ × ℕ,
      (astarManGo mazeC3 40 []).found.map GraphNode.cost = some ca ∧
      (jpsGo mazeC3 40 40 []).found.map JNode.cost = some cj ∧
      (ca : ℝ) ≠ (cj.1 : ℝ) + (cj.2 : ℝ) * Real.sqrt 2 := by
  refine ⟨8, (4, 2), rfl, rfl, ?_⟩
  have hs : Real.sqrt 2 < 2 := (Real.sqrt_lt' (by norm_num)).mpr (by norm_num)
  push_cast
  intro h
  linarith

/-- C4 (confirmed): for every sequence of `put`s followed by repeated
`pop`s, the keys of the popped entries come out in non-decreasing
order. -/
theorem claim_C4_pops_sorted :
    ∀ (puts : List (GraphNode × ℤ)) (fuel : ℕ),
      List.Chain' (fun a b => a ≤ b)
        ((popAllEntries fuel (putAll puts)).map Prod.snd) :=
  fun puts fuel => popAll_chain fuel (putAll puts) (putAll_heapInv puts)

/-- C5 (corrected): the custom priority queue has NO insertion counter;
entries with equal keys pop in binary-heap order, not first-in
first-out.  On three equal-key puts `n1, n2, n3` the pop order is
`n1, n3, n2`: the first `pop` moves the most recently inserted entry to
the root, where it stays because the keys tie. -/
theorem claim_C5_eqkey_pop_order :
    (popAllEntries 3 (putAll [(cexN1, 5), (cexN2, 5), (cexN3, 5)])).map
        Prod.fst =
      [cexN1, cexN3, cexN2] := by
  rw [popAll_eval_eqkeys]
  rfl

/-- C5 counterexample: equal-key entries are NOT popped in insertion
order. -/
theorem claim_C5_cex :
    (popAllEntries 3 (putAll [(cexN1, 5), (cexN2, 5), (cexN3, 5)])).map
        Prod.fst ≠
      [cexN1, cexN2, cexN3] := by
  rw [popAll_eval_eqkeys]
  decide

/-- C6 (confirmed): after any sequence of `put`/`pop` operations on the
custom queue, `__contains__` holds for a position iff at least one
entry with that position is still live (pushed, not yet popped), and
the `_content` map stores exactly the positive live-entry counts
(absent means zero; counts are never zero or negative while present). -/
theorem claim_C6_contains_iff_live :
    ∀ (ops : List QOp) (p : Pos),
      ((runQOps ops).containsPos p = true ↔ 0 < liveCount (runQOps ops) p) ∧
      dictGet (runQOps ops).content p =
        (if liveCount (runQOps ops) p = 0 then none
         else some (liveCount (runQOps ops) p)) := by
  intro ops p
  have hq := runQOps_qinv ops
  have h2 := hq.2 p
  refine ⟨?_, h2⟩
  unfold PriorityQueue.containsPos
  rw [h2]
  by_cases h0 : liveCount (runQOps ops) p = 0
  · rw [if_pos h0, h0]
    simp
  · rw [if_neg h0]
    simp
    omega

/-- C7 (corrected): `_expand_node` pushes a child with `cost + 1`
exactly for the orthogonal neighbors that are STRICTLY INSIDE the
grid's outer ring (`0 < row < height-1`, `0 < column < width-1`) — not
merely in-bounds — and whose cell is not a wall; the loop additionally
filters out neighbors that are explored or already pending in the
frontier. -/
theorem claim_C7_expansion_characterisation :
    ∀ (m : Maze) (node c : GraphNode),
      (c ∈ expandNode m node ↔
        ∃ d ∈ orthDirs,
          m.interior (d.delta.1 + node.data.1, d.delta.2 + node.data.2) = true ∧
          m.cellAt (d.delta.1 + node.data.1) (d.delta.2 + node.data.2) ≠
            Cell.wall ∧
          c = GraphNode.child (d.delta.1 + node.data.1, d.delta.2 + node.data.2)
                node (some d) (node.cost + 1)) ∧
      ∀ (ex' : List Pos) (pending : List GraphNode),
        (c ∈ (expandNode m node).filter
            (fun nb => nb.data ∉ ex' && !dllContains pending nb.data) ↔
          c ∈ expandNode m node ∧ c.data ∉ ex' ∧
            dllContains pending c.data = false) := by
  intro m node c
  refine ⟨expandNode_mem_iff m node c, ?_⟩
  intro ex' pending
  rw [List.mem_filter]
  simp [Bool.and_eq_true, Bool.not_eq_true', and_assoc]

/-- C7 counterexample: on `mazeC7`, the border cell `(0, 2)` is
in-bounds in the spec's sense, open, and an orthogonal (up) neighbor of
the node at `(1, 2)`, yet `_expand_node` never produces it. -/
theorem claim_C7_cex :
    specInBounds mazeC7 (0, 2) = true ∧
    mazeC7.cellAt 0 2 ≠ Cell.wall ∧
    (0, 2) = ((Dir.up).delta.1 + (1 : ℤ), (Dir.up).delta.2 + (2 : ℤ)) ∧
    Dir.up ∈ orthDirs ∧
    (∀ c ∈ expandNode mazeC7 (GraphNode.root (1, 2) none 0),
      c.data ≠ (0, 2)) := by
  refine ⟨by decide, by decide, by decide, by decide, by decide⟩

/-- C8 (confirmed): every node produced by an expansion function — the
orthogonal `_expand_node` used by DFS/BFS/A* and the JPS jump-point
expansion — has a position strictly inside the grid's outer ring. -/
theorem claim_C8_pushed_interior :
    (∀ (m : Maze) (n c : GraphNode), c ∈ expandNode m n →
      m.interior c.data = true) ∧
    (∀ (mz : Maze) (fuel : ℕ) (n jp : JNode), jp ∈ jpsExpand mz fuel n →
      mz.interior jp.data = true) :=
  ⟨fun m n c h => expandNode_interior m n c h,
   fun mz fuel n jp h => jpsExpand_interior mz fuel n jp h⟩

/-- C9 (corrected): the parent-chain walk always terminates, after
exactly the chain's length, at an ancestor with no parent — and for
DFS, BFS and plain A* the chain of any returned node visits each
position at most once; but for JPS this fails (see the
counterexample), so "for any strategy" is too strong. -/
theorem claim_C9_chain_nodup :
    (∀ (m : Maze) (index : ℤ) (fuel : ℕ) (sol ex2 : List Pos),
        solveUninformed m index fuel = .ok sol ex2 → sol.Nodup) ∧
    (∀ (m : Maze) (fuel : ℕ) (cs : List ℕ) (n : GraphNode),
        (astarManGo m fuel cs).found = some n → n.chain.Nodup) ∧
    (∀ (m : Maze) (fuel : ℕ) (cs : List ℕ) (n : GraphNode),
        (astarEuGo m fuel cs).found = some n → n.chain.Nodup) ∧
    (∀ n : GraphNode, n.chain ≠ [] ∧ n.chain.getLast? = some n.rootAnc.data ∧
        n.rootAnc.prev = none) ∧
    (∀ n : JNode, n.chain ≠ [] ∧ n.chain.getLast? = some n.rootAnc.data) := by
  refine ⟨?_, ?_, ?_, chain_terminates, jchain_terminates⟩
  · intro m index fuel sol ex2 h
    refine uninformedLoop_sol_nodup m index fuel
      [GraphNode.root m.start none 0] [] ?_ sol ex2 h
    intro nd hnd
    rw [List.mem_singleton] at hnd
    subst hnd
    exact chainInv_root m.start
  · intro m fuel cs n h
    refine informedGo_found_nodup m
      (fun nd => manhattanTo m.stop nd.data + nd.cost) Nat.blt fuel cs
      [(manhattanTo m.stop m.start + 0, GraphNode.root m.start none 0)] []
      ?_ n h
    intro e he
    rw [List.mem_singleton] at he
    subst he
    exact chainInv_root m.start
  · intro m fuel cs n h
    refine informedGo_found_nodup m
      (fun nd => (nd.cost, sqDistTo m.stop nd.data)) ltEu fuel cs
      [((0, sqDistTo m.stop m.start), GraphNode.root m.start none 0)] []
      ?_ n h
    intro e he
    rw [List.mem_singleton] at he
    subst he
    exact chainInv_root m.start

/-- C9 counterexample: the JPS terminal node's backpointer chain on
`mazeC9` visits a position twice. -/
theorem claim_C9_cex :
    (jpsGo mazeC9 40 40 []).found.isSome = true ∧
    ¬ (informedSolution JNode.chain (jpsGo mazeC9 40 40 []).found).Nodup := by
  constructor
  · rfl
  · decide

/-- C10 (code bug): on an empty frontier the two ends do NOT fail
alike with a typed error: `remove(-1)` (DFS) trips the
`abs(index) > size` guard and raises the `ValueError`, while
`remove(0)` (BFS) passes the guard (`abs(0) > 0` is false) and crashes
with an untyped `AttributeError` dereferencing `self.head = None`. -/
theorem claim_C10_empty_remove :
    dllRemove [] 0 = .error .attrError ∧
    dllRemove [] (-1) = .error .valueError := by
  constructor <;> rfl

end MazeSolver
